import Mathlib

/-!
# Verification of the docker-spk two-pass archive builder

Shallow embedding of the conversion core of `src/main.go`:

* Go `path/filepath` utilities on Unix (`Clean`, `Dir`, `Base`) ported
  character-for-character, and the source's `dirname`/`basename` wrappers;
* the child-count pass `getDirSizes` (pass 1);
* the tree-building pass `buildArchive` (pass 2) with its mutually
  recursive closures `nextChild` and `getParent`, modelled with explicit
  state passing (Go's in-place map/message mutation) and a fuel parameter
  (Go recursion whose depth is bounded by the path depth of the input).

External collaborators that `src/main.go` uses but whose code is not part
of the repository snapshot are modelled from the spec:

* the Layer Source (spec section 6) is an already-decoded value of type
  `List (List Header)`: an ordered list of layers, each an ordered list of
  tar entries; `tarIt.Reader()` plus `ioutil.ReadAll` is modelled by the
  `content` field of `Header` (`none` models a read failure);
* the Tree Sink (spec section 6) is a purely functional tree of
  fixed-length directories.  Slot handles are index paths from the root;
  an out-of-range `At` yields the invalid (zero) handle, writes through
  an invalid handle fail, reading the `directory` union field of a node
  that is not a directory fails (the source declares `ErrNotADir` for
  this condition), and no directory grows after allocation.
-/

set_option maxRecDepth 10000

namespace DockerSpk

/-! ## Go path/filepath, Unix rules -/

/-- Inner loop of `filepath.Clean`'s `..`-backtracking: Go's
`out.w--; for out.w > dotdot && !os.IsPathSeparator(out.index(out.w)) { out.w-- }`.
`kept` is the output buffer in reversed order after the unconditional first
drop, `dropped` is the character most recently removed (the character at
index `out.w` of the underlying buffer). -/
def backtrackLoop (dotdot : Nat) : List Char → Char → List Char
  | [], _ => []
  | c :: rest, dropped =>
    if dotdot < (c :: rest).length ∧ dropped ≠ '/' then backtrackLoop dotdot rest c
    else c :: rest

/-- `..`-backtracking step of `filepath.Clean` on the reversed output buffer. -/
def backtrack (dotdot : Nat) : List Char → List Char
  | [] => []
  | c :: rest => backtrackLoop dotdot rest c

theorem dropWhile_length_le {α : Type} (p : α → Bool) (l : List α) :
    (l.dropWhile p).length ≤ l.length := by
  induction l with
  | nil => simp [List.dropWhile]
  | cons a t ih =>
    rw [List.dropWhile]
    cases p a
    · simp
    · simpa using Nat.le_succ_of_le ih

/-- Main loop of Go `filepath.Clean` (Unix: the separator is `'/'`, no
volume names).  `cs` is the unread input, `out` the output buffer in
reversed order, `dotdot` the index up to which `..` may not backtrack.
Each iteration of Go's loop consumes at least one input character, so
the loop is driven by a fuel argument that `clean` instantiates with
more than the input length; the fuel is never exhausted. -/
def cleanLoop (rooted : Bool) : Nat → List Char → List Char → Nat → List Char
  | 0, _, out, _ => out
  | _ + 1, [], out, _ => out
  | fuel + 1, c :: rest, out, dotdot =>
    if c = '/' then
      -- empty path element
      cleanLoop rooted fuel rest out dotdot
    else if c = '.' ∧ (rest.head? = none ∨ rest.head? = some '/') then
      -- . element
      cleanLoop rooted fuel rest out dotdot
    else if c = '.' ∧ rest.head? = some '.' ∧
        (rest.tail.head? = none ∨ rest.tail.head? = some '/') then
      -- .. element: remove to last separator
      if dotdot < out.length then
        cleanLoop rooted fuel rest.tail (backtrack dotdot out) dotdot
      else if rooted = false then
        -- cannot backtrack, but not rooted, so append a .. element
        let out2 := if out.length ≠ 0 then '.' :: '.' :: '/' :: out else '.' :: '.' :: out
        cleanLoop rooted fuel rest.tail out2 out2.length
      else
        cleanLoop rooted fuel rest.tail out dotdot
    else
      -- real path element: add a slash if needed, then copy the element
      let out2 := if (rooted ∧ out.length ≠ 1) ∨ (rooted = false ∧ out.length ≠ 0)
        then '/' :: out else out
      cleanLoop rooted fuel (rest.dropWhile (fun x => x ≠ '/'))
        ((rest.takeWhile (fun x => x ≠ '/')).reverse ++ (c :: out2)) dotdot

/-- Go `filepath.Clean` on Unix. -/
def clean (path : String) : String :=
  match path.data with
  | [] => "."
  | c :: rest =>
    let out := if c = '/' then cleanLoop true (rest.length + 1) rest ['/'] 1
      else cleanLoop false (rest.length + 2) (c :: rest) [] 0
    if out.length = 0 then "." else String.mk out.reverse

/-- Go `filepath.Dir` on Unix: everything up to and including the final
separator, cleaned («Clean» of the empty string is `"."`). -/
def goDir (path : String) : String :=
  clean (String.mk ((path.data.reverse.dropWhile (fun c => c ≠ '/')).reverse))

/-- Go `filepath.Base` on Unix. -/
def goBase (path : String) : String :=
  if path = "" then "."
  else
    let stripped := path.data.reverse.dropWhile (fun c => c = '/')
    let baseRev := stripped.takeWhile (fun c => c ≠ '/')
    if baseRev.isEmpty then "/" else String.mk baseRev.reverse

/-- `dirname` from src/main.go: `filepath.Clean(filepath.Dir(name))`. -/
def dirname (name : String) : String := clean (goDir name)

/-- `basename` from src/main.go: `filepath.Clean(filepath.Base(name))`. -/
def basename (name : String) : String := clean (goBase name)

/-! ## Tar entries (the decoded layer stream, spec section 6) -/

/-- `archive/tar` type flag constant `'5'`. -/
def tarTypeDir : Nat := 53

/-- `archive/tar` type flag constant `'0'`. -/
def tarTypeReg : Nat := 48

/-- `archive/tar` type flag constant `'2'`. -/
def tarTypeSymlink : Nat := 50

/-- One tar entry of one layer, as exposed by the Layer Source.
`content` models `ioutil.ReadAll(tarIt.Reader())`: `some bytes` is a
successful read, `none` a read failure. -/
structure Header where
  name : String
  typeflag : Nat
  mode : Nat
  linkname : String
  content : Option (List Nat)
deriving Repr

/-- `hdr.FileInfo().Mode().Perm()`: the low nine permission bits. -/
def permOf (hdr : Header) : Nat := hdr.mode % 512

/-- `supportedTypeFlag` from src/main.go. -/
def supportedTypeFlag (hdr : Header) : Bool :=
  hdr.typeflag = tarTypeDir ∨ hdr.typeflag = tarTypeReg ∨ hdr.typeflag = tarTypeSymlink

/-! ## Go maps as association lists

A Go `map` is modelled as an association list with at most one entry per
key; assignment rewrites in place or appends, and indexing a missing key
yields the zero value. -/

/-- Lookup in a Go map: `v, ok := m[k]`. -/
def alGet? {α : Type} (m : List (String × α)) (k : String) : Option α :=
  match m with
  | [] => none
  | (k', v) :: t => if k' = k then some v else alGet? t k

/-- Indexing a Go `map[string]int`: missing keys read as `0`. -/
def alGetI (m : List (String × Int)) (k : String) : Int :=
  (alGet? m k).getD 0

/-- Go map assignment `m[k] = v`. -/
def alSet {α : Type} (m : List (String × α)) (k : String) (v : α) : List (String × α) :=
  match m with
  | [] => [(k, v)]
  | (k', v') :: t => if k' = k then (k, v) :: t else (k', v') :: alSet t k v

/-! ## Pass 1: getDirSizes -/

/-- The body of `getDirSizes`' entry loop (src/main.go lines 67-79):
directories are forced into the map with their current (default zero)
count, then every supported entry increments its parent's count. -/
def dirStep (m : List (String × Int)) (hdr : Header) : List (String × Int) :=
  let name := clean hdr.name
  let parentName := dirname name
  if hdr.typeflag = tarTypeDir then
    let m1 := alSet m name (alGetI m name)
    alSet m1 parentName (alGetI m1 parentName + 1)
  else if hdr.typeflag = tarTypeReg ∨ hdr.typeflag = tarTypeSymlink then
    alSet m parentName (alGetI m parentName + 1)
  else m

/-- `getDirSizes` from src/main.go: one forward pass over every layer in
layer order. -/
def getDirSizes (layers : List (List Header)) : List (String × Int) :=
  layers.foldl (fun m layer => layer.foldl dirStep m) []

/-! ## The Tree Sink (spec section 6), modelled from the spec

The capnproto message holding the archive is modelled as a purely
functional tree.  An `spk.Archive_File` node is a pair of its `name`
field and its union field `FC`; `FC.unset` is a freshly allocated,
never-written slot.  A live `spk.Archive_File` value is a `Handle`:
either the zero value `Handle.zero` (what an out-of-range `List.At`
returns), or the index path of a slot from the root.  Writes through the
zero handle fail; reads of the zero handle's fields yield defaults, as
capnproto reads of a zero struct do. -/

/-- Union field of an `spk.Archive_File` node. -/
inductive FC where
  | unset
  | regular (data : List Nat)
  | executable (data : List Nat)
  | symlink (target : String)
  | directory (children : List (String × FC))

/-- Errors surfaced by pass 2.  `notADir` models the source's
`ErrNotADir` (reading the directory field of a non-directory node);
`invalidHandle` models a write through a zero or dangling struct;
`negativeLen` models allocating a list of negative length; `readError`
models an entry-content read failure; `outOfFuel` is the model's
counterpart of unbounded recursion in `getParent`/`nextChild` (which on
rooted paths never terminates in the Go source). -/
inductive BErr where
  | invalidHandle
  | notADir
  | negativeLen
  | readError
  | outOfFuel
deriving Repr, DecidableEq

/-- A live `spk.Archive_File` value. -/
inductive Handle where
  | zero
  | addr (a : List Nat)
deriving Repr, DecidableEq

/-- Read the node (name, union field) at an index path. -/
def getNode : (String × FC) → List Nat → Option (String × FC)
  | f, [] => some f
  | (_, FC.directory ch), i :: rest =>
    match ch[i]? with
    | some c => getNode c rest
    | none => none
  | _, _ :: _ => none

/-- Apply `g` to the node at an index path (no-op on a dangling path). -/
def modNode (g : (String × FC) → (String × FC)) : (String × FC) → List Nat → (String × FC)
  | f, [] => g f
  | (n, FC.directory ch), i :: rest =>
    match ch[i]? with
    | some c => (n, FC.directory (ch.set i (modNode g c rest)))
    | none => (n, FC.directory ch)
  | f, _ :: _ => f

/-- Build state of pass 2: the countdown allocator `dirSizes`, the name
index `allFiles`, and the tree under construction (the synthetic root
`spk.Archive_File` of src/main.go line 152). -/
structure BSt where
  dirSizes : List (String × Int)
  allFiles : List (String × Handle)
  root : String × FC

/-- A directory list as returned by `parent.Directory()`: either the
zero list (obtained by reading a zero struct) or the child list at an
address. -/
inductive DirView where
  | zeroView
  | dirAt (a : List Nat) (len : Nat)
deriving Repr, DecidableEq

/-- `dir.Len()`. -/
def dirViewLen : DirView → Nat
  | .zeroView => 0
  | .dirAt _ n => n

/-- `dir.At(i)`: an in-range index yields the slot's handle, anything
else the zero struct. -/
def dirViewAt (dv : DirView) (i : Int) : Handle :=
  match dv with
  | .zeroView => .zero
  | .dirAt a n => if 0 ≤ i ∧ i < (n : Int) then .addr (a ++ [i.toNat]) else .zero

/-- `parent.Directory()`.  Reading the zero struct succeeds with the
zero list; reading a node whose union is not `directory` fails (the
condition the source's `ErrNotADir` names). -/
def directoryOf (s : BSt) (h : Handle) : Except BErr DirView :=
  match h with
  | .zero => .ok .zeroView
  | .addr a =>
    match getNode s.root a with
    | none => .error .invalidHandle
    | some (_, FC.directory ch) => .ok (.dirAt a ch.length)
    | some _ => .error .notADir

/-- `child.SetName(v)`: fails through an invalid handle. -/
def setName (s : BSt) (h : Handle) (v : String) : BSt × Option BErr :=
  match h with
  | .zero => (s, some .invalidHandle)
  | .addr a =>
    match getNode s.root a with
    | none => (s, some .invalidHandle)
    | some _ => ({ s with root := modNode (fun f => (v, f.2)) s.root a }, none)

/-- `file.NewDirectory(n)`: replaces the union field with a fresh
directory of `n` empty slots. -/
def newDirectory (s : BSt) (h : Handle) (n : Int) : BSt × Option BErr :=
  match h with
  | .zero => (s, some .invalidHandle)
  | .addr a =>
    match getNode s.root a with
    | none => (s, some .invalidHandle)
    | some _ =>
      if n < 0 then (s, some .negativeLen)
      else
        ({ s with
            root := modNode (fun f => (f.1, FC.directory (List.replicate n.toNat ("", FC.unset))))
              s.root a },
          none)

/-- Write a union field value through a handle. -/
def setFC (s : BSt) (h : Handle) (fc : FC) : BSt × Option BErr :=
  match h with
  | .zero => (s, some .invalidHandle)
  | .addr a =>
    match getNode s.root a with
    | none => (s, some .invalidHandle)
    | some _ => ({ s with root := modNode (fun f => (f.1, fc)) s.root a }, none)

/-- `file.SetRegular(bytes)`. -/
def setRegular (s : BSt) (h : Handle) (bytes : List Nat) : BSt × Option BErr :=
  setFC s h (FC.regular bytes)

/-- `file.SetExecutable(bytes)`. -/
def setExecutable (s : BSt) (h : Handle) (bytes : List Nat) : BSt × Option BErr :=
  setFC s h (FC.executable bytes)

/-- `file.SetSymlink(target)`. -/
def setSymlink (s : BSt) (h : Handle) (target : String) : BSt × Option BErr :=
  setFC s h (FC.symlink target)

/-! ## Pass 2: buildArchive -/

/-- The mutually recursive closures `nextChild` and `getParent` of
`buildArchive` (src/main.go lines 115-148), merged into one function
driven by the discriminator `isNext` so that the recursion is structural
on the fuel.  `walk fuel true` is `nextChild`, `walk fuel false` is
`getParent`.  In the `nextChild` body note the faithful modelling of the
Go bug: the error returned by `getParent` is immediately overwritten by
the result of `parent.Directory()` and never inspected. -/
def walk : Nat → Bool → BSt → String → BSt × Handle × Option BErr
  | 0, _, s, _ => (s, .zero, some .outOfFuel)
  | fuel + 1, true, s, name =>
    -- nextChild (src/main.go lines 119-130)
    let r := walk fuel false s name
    -- Go: parent, err := getParent(name); dir, err := parent.Directory()
    match directoryOf r.1 r.2.1 with
    | .error e => (r.1, .zero, some e)
    | .ok dv =>
      let s1 := r.1
      let parentName := dirname name
      let child := dirViewAt dv ((dirViewLen dv : Int) - alGetI s1.dirSizes parentName)
      let r2 := setName s1 child (basename name)
      let s2 := { r2.1 with
        dirSizes := alSet r2.1.dirSizes parentName (alGetI r2.1.dirSizes parentName - 1) }
      (s2, child, r2.2)
  | fuel + 1, false, s, name =>
    -- getParent (src/main.go lines 132-148)
    let parentName := dirname name
    match alGet? s.allFiles parentName with
    | some h => (s, h, none)
    | none =>
      let r := walk fuel true s parentName
      match r.2.2 with
      | some e => (r.1, r.2.1, some e)
      | none =>
        match newDirectory r.1 r.2.1 (alGetI r.1.dirSizes parentName) with
        | (s2, some e) => (s2, r.2.1, some e)
        | (s2, none) =>
          ({ s2 with allFiles := alSet s2.allFiles parentName r.2.1 }, r.2.1, none)

/-- The `nextChild` closure of `buildArchive`. -/
def nextChild (fuel : Nat) (s : BSt) (name : String) : BSt × Handle × Option BErr :=
  walk fuel true s name

/-- The `getParent` closure of `buildArchive`. -/
def getParent (fuel : Nat) (s : BSt) (name : String) : BSt × Handle × Option BErr :=
  walk fuel false s name

/-- One iteration of `buildArchive`'s entry loop (src/main.go lines
166-200).  The `none` error on the regular-file branch after a
successful content read is faithful to the source: there the result of
`SetRegular`/`SetExecutable` is assigned to an `err` variable that is
scoped to the `case` clause and never checked. -/
def processEntry (fuel : Nat) (s : BSt) (hdr : Header) : BSt × Option BErr :=
  if supportedTypeFlag hdr = false then (s, none)
  else
    let name := clean hdr.name
    match alGet? s.allFiles name with
    | some _ => (s, none)
    | none =>
      let r := nextChild fuel s name
      match r.2.2 with
      | some e => (r.1, some e)
      | none =>
        let s1 := { r.1 with allFiles := alSet r.1.allFiles name r.2.1 }
        if hdr.typeflag = tarTypeDir then
          newDirectory s1 r.2.1 (alGetI s1.dirSizes name)
        else if hdr.typeflag = tarTypeSymlink then
          setSymlink s1 r.2.1 hdr.linkname
        else
          match hdr.content with
          | none => (s1, some .readError)
          | some bytes =>
            let stored := if permOf hdr &&& 73 = 0
              then setRegular s1 r.2.1 bytes
              else setExecutable s1 r.2.1 bytes
            (stored.1, none)

/-- The inner entry loop over one layer, aborting on the first error. -/
def buildEntries (fuel : Nat) (s : BSt) : List Header → BSt × Option BErr
  | [] => (s, none)
  | hdr :: t =>
    match processEntry fuel s hdr with
    | (s', none) => buildEntries fuel s' t
    | (s', some e) => (s', some e)

/-- The outer layer loop, aborting on the first error. -/
def buildLayers (fuel : Nat) (s : BSt) : List (List Header) → BSt × Option BErr
  | [] => (s, none)
  | layer :: t =>
    match buildEntries fuel s layer with
    | (s', none) => buildLayers fuel s' t
    | (s', some e) => (s', some e)

/-- Recursion budget for `nextChild`/`getParent`: comfortably more than
twice the deepest cleaned path of the stream.  The Go source has no such
bound; on inputs on which the Go recursion does not terminate (cleaned
rooted paths, whose parent chain never reaches the preseeded root `"."`),
the model returns `BErr.outOfFuel` instead. -/
def fuelFor (layers : List (List Header)) : Nat :=
  2 * layers.foldl (fun acc layer =>
    layer.foldl (fun a hdr => max a (clean hdr.name).length) acc) 0 + 8

/-- Initial state of pass 2 (src/main.go lines 113, 152-160): empty name
index except the synthetic root registered under `"."`, whose directory
is preallocated with `dirSizes["."]` slots.  `getDirSizes` only ever
increments counts starting from zero, so the `Int.toNat` coercion is
exact on every reachable input. -/
def initState (ds : List (String × Int)) : BSt :=
  { dirSizes := ds
  , allFiles := [(".", Handle.addr [])]
  , root := ("", FC.directory (List.replicate (alGetI ds ".").toNat ("", FC.unset))) }

/-- The result of a conversion: the root directory's child list (what
`ret.SetFiles(rootFiles)` attaches to the archive) and the
manifest-present signal that drives the non-fatal warning of src/main.go
lines 207-213. -/
structure ArchiveOut where
  files : List (String × FC)
  manifestPresent : Bool

/-- The root's child list. -/
def rootChildren (f : String × FC) : List (String × FC) :=
  match f.2 with
  | (FC.directory ch) => ch
  | _ => []

/-- `buildArchive` from src/main.go: pass 1, then pass 2 over the same
stream, then the manifest lookup. -/
def buildArchive (layers : List (List Header)) : Except BErr ArchiveOut :=
  let ds := getDirSizes layers
  match buildLayers (fuelFor layers) (initState ds) layers with
  | (_, some e) => .error e
  | (s, none) =>
    .ok { files := rootChildren s.root
        , manifestPresent := (alGet? s.allFiles "sandstorm-manifest").isSome }

/-! ## Derived notions used by the statements -/

mutual

/-- Every slot of every directory of this union value is occupied: no
preallocated slot was left unwritten. -/
def fcFull : FC → Bool
  | .unset => false
  | .regular _ => true
  | .executable _ => true
  | .symlink _ => true
  | .directory ch => slotsFull ch

/-- `fcFull` on every slot of a child list. -/
def slotsFull : List (String × FC) → Bool
  | [] => true
  | sl :: t => fcFull sl.2 && slotsFull t

end

/-- Modelled from the spec: the reference child-count tally of claim C7
(spec section 4.2) — processing supported entries in layer order, a
directory entry first ensures its own normalized path is present with
default count zero, and every supported entry then increments the count
of its normalized parent path by one. -/
def refStep (m : List (String × Int)) (e : Header) : List (String × Int) :=
  if supportedTypeFlag e = true then
    let p := clean e.name
    let m1 := if e.typeflag = tarTypeDir then
        (if (alGet? m p).isSome then m else alSet m p 0)
      else m
    alSet m1 (dirname p) (alGetI m1 (dirname p) + 1)
  else m

/-- Modelled from the spec: the whole reference tally over the stream of
supported entries in layer order. -/
def refTally (entries : List Header) : List (String × Int) :=
  entries.foldl refStep []

/-! ## Association-list lemmas -/

theorem alGet?_alSet_self {α : Type} (m : List (String × α)) (k : String) (v : α) :
    alGet? (alSet m k v) k = some v := by
  induction m with
  | nil => simp [alGet?, alSet]
  | cons kv t ih =>
    obtain ⟨k', v'⟩ := kv
    by_cases hk : k' = k
    · simp [alGet?, alSet, hk]
    · simp [alGet?, alSet, hk, ih]

theorem alGet?_alSet_other {α : Type} (m : List (String × α)) (k k' : String) (v : α)
    (h : k ≠ k') : alGet? (alSet m k v) k' = alGet? m k' := by
  induction m with
  | nil => simp [alGet?, alSet, h]
  | cons kv t ih =>
    obtain ⟨k0, v0⟩ := kv
    by_cases hk : k0 = k
    · subst hk; simp [alGet?, alSet, h]
    · simp only [alSet, if_neg hk, alGet?]
      by_cases hk' : k0 = k' <;> simp [hk', ih]

theorem alSet_self {α : Type} (m : List (String × α)) (k : String) (v : α)
    (h : alGet? m k = some v) : alSet m k v = m := by
  induction m with
  | nil => simp [alGet?] at h
  | cons kv t ih =>
    obtain ⟨k', v'⟩ := kv
    by_cases hk : k' = k
    · subst hk
      have hv : v' = v := by simpa [alGet?] using h
      subst hv
      simp [alSet]
    · simp only [alGet?, if_neg hk] at h
      simp [alSet, hk, ih h]

theorem dirStep_eq_refStep : dirStep = refStep := by
  funext m e
  unfold dirStep refStep supportedTypeFlag
  by_cases hd : e.typeflag = tarTypeDir
  · simp only [hd, if_pos rfl, decide_eq_true_eq, if_true, true_or]
    cases hp : alGet? m (clean e.name) with
    | none => simp [alGetI, hp]
    | some v => simp [alGetI, hp, alSet_self m _ v hp]
  · by_cases hr : e.typeflag = tarTypeReg ∨ e.typeflag = tarTypeSymlink
    · simp [hd, hr]
    · simp [hd, hr]

theorem foldl_flatten' {α β : Type} (f : β → α → β) :
    ∀ (L : List (List α)) (b : β),
      (L.flatten).foldl f b = L.foldl (fun x l => l.foldl f x) b
  | [], _ => rfl
  | l :: t, b => by
    simp only [List.flatten_cons, List.foldl_append, List.foldl_cons]
    exact foldl_flatten' f t _

/-! ## Concrete entry streams used in the statements -/

/-- A regular-file entry with the given permission bits and content. -/
def regEntry (n : String) (m : Nat) (c : List Nat) : Header :=
  ⟨n, tarTypeReg, m, "", some c⟩

/-- A directory entry. -/
def dirEntry (n : String) : Header := ⟨n, tarTypeDir, 0o755, "", some []⟩

/-- A symlink entry. -/
def symEntry (n t : String) : Header := ⟨n, tarTypeSymlink, 0o777, t, some []⟩

/-- The stream of claim C2: one regular file at `"x/y/z.txt"`, no
explicit directory entries anywhere. -/
def implicitOnlyStream : List (List Header) := [[regEntry "x/y/z.txt" 0o644 [1]]]

/-- The C2 stream completed with explicit (but late, so still lazily
materialized) directory entries for `"x"` and `"x/y"`. -/
def implicitLateDirStream : List (List Header) :=
  [[regEntry "x/y/z.txt" 0o644 [1], dirEntry "x", dirEntry "x/y"]]

/-- Two layers, each containing the same path `"a"`. -/
def duplicateStream : List (List Header) :=
  [[regEntry "a" 0o644 [7]], [regEntry "a" 0o644 [8]]]

/-- Layer 1 introduces `"a/b"` as a regular file, layer 2 redefines it
as a directory (claim C3's scenario). -/
def firstWinsStream : List (List Header) :=
  [[dirEntry "a", regEntry "a/b" 0o644 [9]], [dirEntry "a/b"]]

/-- A file below one implicit directory (claim C4's failing input). -/
def overflowStream : List (List Header) := [[regEntry "d/f" 0o644 [1]]]

/-- A stream with a top-level manifest entry. -/
def manifestStream : List (List Header) :=
  [[regEntry "sandstorm-manifest" 0o644 [1]]]

/-- An entry with an unsupported type flag (`'1'`, a hard link). -/
def hardlinkEntry : Header := ⟨"h", 49, 0o644, "", some []⟩

/-! ## Claim C7: pass 1 equals the spec's reference tally -/

/-- Claim C7: for every entry stream, the map produced by pass 1
(`getDirSizes`) equals the reference tally in which, processing
supported entries in layer order, each directory entry first ensures its
own normalized path is present with default count zero, and every
supported entry increments the count of its normalized parent path by
exactly one. -/
theorem countTallyAgreement :
    ∀ layers : List (List Header), getDirSizes layers = refTally layers.flatten := by
  intro layers
  unfold getDirSizes refTally
  rw [foldl_flatten', dirStep_eq_refStep]

/-! ## Claim C6: unsupported entries are excluded without error -/

/-- Claim C6: an entry whose type flag is not directory, regular file or
symlink contributes nothing to pass 1's count map, and in pass 2 it
creates no node, consumes no slot, and raises no error (the whole build
state is untouched). -/
theorem unsupportedExcluded :
    ∀ e : Header, supportedTypeFlag e = false →
      (∀ m, dirStep m e = m) ∧ (∀ fuel s, processEntry fuel s e = (s, none)) := by
  intro e h
  have h' : ¬e.typeflag = tarTypeDir ∧
      ¬e.typeflag = tarTypeReg ∧ ¬e.typeflag = tarTypeSymlink := by
    simpa [supportedTypeFlag, not_or] using h
  constructor
  · intro m
    simp [dirStep, h'.1, h'.2.1, h'.2.2]
  · intro fuel s
    simp [processEntry, h]

/-- Witness for C6 at the hard-link entry. -/
theorem unsupportedExcluded_witness :
    supportedTypeFlag hardlinkEntry = false ∧
      dirStep [(".", (5 : Int))] hardlinkEntry = [(".", (5 : Int))] ∧
      processEntry 3 (initState []) hardlinkEntry = (initState [], none) :=
  ⟨rfl, (unsupportedExcluded hardlinkEntry rfl).1 _,
    (unsupportedExcluded hardlinkEntry rfl).2 3 _⟩

/-! ## Claim C8: the manifest check is effect-free on the tree -/

/-- Claim C8: whenever the main loop finishes without error in state
`s`, `buildArchive` returns the tree read off from `s` alone, paired
with a manifest-present flag that is exactly the name-index membership
of the fixed top-level path `"sandstorm-manifest"`; the check reads the
state and never alters the produced tree. -/
theorem manifestCheckFrameEffect :
    ∀ (layers : List (List Header)) (s : BSt),
      buildLayers (fuelFor layers) (initState (getDirSizes layers)) layers = (s, none) →
      buildArchive layers =
        .ok { files := rootChildren s.root
            , manifestPresent := (alGet? s.allFiles "sandstorm-manifest").isSome } := by
  intro layers s h
  simp only [buildArchive, h]

/-- Witness for C8 on a stream that does contain the manifest. -/
theorem manifestCheckFrameEffect_witness :
    buildArchive manifestStream =
      .ok { files := rootChildren (buildLayers (fuelFor manifestStream)
              (initState (getDirSizes manifestStream)) manifestStream).1.root
          , manifestPresent := (alGet? (buildLayers (fuelFor manifestStream)
              (initState (getDirSizes manifestStream)) manifestStream).1.allFiles
              "sandstorm-manifest").isSome } :=
  manifestCheckFrameEffect manifestStream _ rfl

/-! ## Claim C3: first writer wins -/

/-- Claim C3: an entry whose normalized path is already in the name
index is skipped entirely — whatever its kind, the build state is
returned unchanged and no error is raised — and concretely, when layer 1
introduces `"a/b"` as a regular file and layer 2 redefines `"a/b"` as a
directory, the merged tree keeps layer 1's regular file and discards
layer 2's definition. -/
theorem firstWriterWins :
    (∀ fuel s (e : Header), (alGet? s.allFiles (clean e.name)).isSome = true →
        processEntry fuel s e = (s, none)) ∧
      buildArchive firstWinsStream =
        .ok { files := [("a", FC.directory [("b", FC.regular [9]), ("", FC.unset)])]
            , manifestPresent := false } := by
  constructor
  · intro fuel s e h
    cases hget : alGet? s.allFiles (clean e.name) with
    | none => rw [hget] at h; simp at h
    | some v =>
      by_cases hs : supportedTypeFlag e = false
      · simp [processEntry, hs]
      · simp [processEntry, hs, hget]
  · rfl

/-- Witness for C3: the duplicate `"a"` of `duplicateStream`'s second
layer is skipped against a state whose index already holds `"a"`. -/
theorem firstWriterWins_witness :
    (alGet? (BSt.mk [] [("a", Handle.zero)] ("", FC.unset)).allFiles
      (clean "a")).isSome = true ∧
      processEntry 3 (BSt.mk [] [("a", Handle.zero)] ("", FC.unset))
        (regEntry "a" 0o644 [8]) =
        (BSt.mk [] [("a", Handle.zero)] ("", FC.unset), none) :=
  ⟨rfl, firstWriterWins.1 3 _ (regEntry "a" 0o644 [8]) rfl⟩

/-! ## Claims C2 and C4: implicit directories are not counted by pass 1 -/

/-- Claim C2 counterexample: on the single-entry stream for
`"x/y/z.txt"`, pass 1 records only the direct parent `"x/y"` — neither
`"."` nor `"x"` — so the root directory is preallocated with zero slots
and the conversion fails instead of materializing `"x"` and `"x/y"`. -/
theorem implicitMaterialization_counterexample :
    getDirSizes implicitOnlyStream = [("x/y", (1 : Int))] ∧
      buildArchive implicitOnlyStream = .error BErr.invalidHandle :=
  ⟨rfl, rfl⟩

/-- Claim C2 (amended): when the stream also contains explicit directory
entries for `"x"` and `"x/y"` — here after the file entry, so both
directories are still materialized lazily by `getParent` before their
own entries arrive — the conversion succeeds and the merged tree
contains directory nodes at `"x"` and `"x/y"`, each with exactly one
child, with the regular-file leaf `"z.txt"` under `"x/y"`. -/
theorem implicitMaterialization_amended :
    buildArchive implicitLateDirStream =
      .ok { files := [("x", FC.directory [("y", FC.directory [("z.txt", FC.regular [1])])])]
          , manifestPresent := false } := rfl

/-- Claim C4, evaluated at the failing input `overflowStream`: pass 1
counts only `"d"`, the root is preallocated with zero slots, and when
pass 2 tries to assign the lazily created `"d"` into the full root
directory there is no internal-consistency check — the out-of-range
`At` yields the zero handle and the conversion fails with the sink's
ordinary invalid-slot write error. -/
theorem slotOverflow_eval :
    getDirSizes overflowStream = [("d", (1 : Int))] ∧
      buildArchive overflowStream = .error BErr.invalidHandle :=
  ⟨rfl, rfl⟩

/-! ## Claim C1 counterexample: duplicate paths leave unfilled slots -/

/-- Claim C1 counterexample: on `duplicateStream` (the path `"a"` occurs
in both layers) the build finishes without raising any error, yet the
root directory was preallocated two slots of which only one is ever
occupied — the promised slot-count agreement fails.  The further
conjuncts force the remaining restrictions of the amended claim: with a
merely implicit ancestor directory the conversion errors out instead,
with an unreadable regular entry it aborts on the content read, and on a
rooted cleaned path the lazy parent recursion never reaches the
preseeded root `"."` (the Go closures recurse forever; in the model the
exhausted recursion hands the zero handle to the error-blind
continuation, which fails writing through it). -/
theorem buildAgreement_counterexample :
    (buildArchive duplicateStream =
      .ok { files := [("a", FC.regular [7]), ("", FC.unset)], manifestPresent := false } ∧
      slotsFull [("a", FC.regular [7]), ("", FC.unset)] = false) ∧
    buildArchive implicitOnlyStream = .error BErr.invalidHandle ∧
    buildArchive [[Header.mk "f" tarTypeReg 0o644 "" none]] = .error BErr.readError ∧
    buildArchive [[regEntry "/f" 0o644 [1]]] = .error BErr.invalidHandle :=
  ⟨⟨rfl, rfl⟩, rfl, rfl, rfl⟩

/-! ## Claim C9: nextChild drops getParent's error -/

/-- The tail of `nextChild`'s body from the `parent.Directory()` call
on: everything `nextChild` computes after its `getParent` call.  Its
arguments are the state and the parent handle only — the error returned
by `getParent` is not an input, which is exactly the shadowing bug of
src/main.go lines 120-121. -/
def nextChildCont (s1 : BSt) (parent : Handle) (name : String) : BSt × Handle × Option BErr :=
  match directoryOf s1 parent with
  | .error e => (s1, .zero, some e)
  | .ok dv =>
    let parentName := dirname name
    let child := dirViewAt dv ((dirViewLen dv : Int) - alGetI s1.dirSizes parentName)
    let r2 := setName s1 child (basename name)
    ({ r2.1 with
        dirSizes := alSet r2.1.dirSizes parentName (alGetI r2.1.dirSizes parentName - 1) },
      child, r2.2)

/-- A build state in which `"x"` is a regular file, so that obtaining
the parent of `"x/y/z"` fails. -/
def fileThenChildState : BSt :=
  { dirSizes := [(".", (0 : Int))]
  , allFiles := [(".", Handle.addr []), ("x", Handle.addr [0])]
  , root := ("", FC.directory [("x", FC.regular [1])]) }

/-- Claim C9: `nextChild`'s result is a function of `getParent`'s state
and returned handle alone — the error value `getParent` returns is
overwritten before it is ever inspected — and concretely, on
`fileThenChildState` the lazy parent lookup for `"x/y/z"` fails with
`notADir` while `nextChild` returns `invalidHandle`: the propagated
error does not reflect the parent failure. -/
theorem getParentErrorDropped :
    (∀ fuel s name, nextChild (fuel + 1) s name =
        nextChildCont (getParent fuel s name).1 (getParent fuel s name).2.1 name) ∧
      getParent 4 fileThenChildState "x/y/z" =
        (fileThenChildState, Handle.zero, some BErr.notADir) ∧
      (nextChild 5 fileThenChildState "x/y/z").2.2 = some BErr.invalidHandle :=
  ⟨fun _ _ _ => rfl, rfl, rfl⟩

/-! ## Claim C10: store errors are shadowed, read errors abort -/

/-- Claim C10: in the regular-file branch of the build loop, once the
entry's content has been read successfully and a slot allocated, the
loop iteration always reports success — the result of
`SetRegular`/`SetExecutable` is assigned to a shadowed variable and
never consulted — whereas a failure to read the content always aborts
the iteration with a read error. -/
theorem storeErrorShadowed :
    (∀ fuel s (e : Header) bytes, e.typeflag = tarTypeReg →
        alGet? s.allFiles (clean e.name) = none →
        e.content = some bytes →
        (nextChild fuel s (clean e.name)).2.2 = none →
        (processEntry fuel s e).2 = none) ∧
      (∀ fuel s (e : Header), e.typeflag = tarTypeReg →
        alGet? s.allFiles (clean e.name) = none →
        e.content = none →
        (nextChild fuel s (clean e.name)).2.2 = none →
        (processEntry fuel s e).2 = some BErr.readError) := by
  constructor
  · intro fuel s e bytes ht hget hcont hnc
    cases hr : nextChild fuel s (clean e.name) with
    | mk s1 p =>
      obtain ⟨h, err⟩ := p
      rw [hr] at hnc
      simp only at hnc
      subst hnc
      simp only [processEntry, supportedTypeFlag, ht, tarTypeDir, tarTypeReg, tarTypeSymlink,
        hget, hcont, hr]
      norm_num
  · intro fuel s e ht hget hcont hnc
    cases hr : nextChild fuel s (clean e.name) with
    | mk s1 p =>
      obtain ⟨h, err⟩ := p
      rw [hr] at hnc
      simp only at hnc
      subst hnc
      simp only [processEntry, supportedTypeFlag, ht, tarTypeDir, tarTypeReg, tarTypeSymlink,
        hget, hcont, hr]
      norm_num

/-! ## Node-addressing lemmas for the sink model -/

theorem getNode_modNode (g : (String × FC) → (String × FC)) :
    ∀ (a : List Nat) (r f : String × FC),
      getNode r a = some f → getNode (modNode g r a) a = some (g f) := by
  intro a
  induction a with
  | nil =>
    intro r f h
    simp only [getNode, Option.some.injEq] at h
    subst h
    simp [getNode, modNode]
  | cons i rest ih =>
    intro r f h
    obtain ⟨n, fc⟩ := r
    cases fc with
    | directory ch =>
      simp only [getNode] at h
      cases hc : ch[i]? with
      | none => rw [hc] at h; simp at h
      | some c =>
        rw [hc] at h
        have hi : i < ch.length := by
          by_contra hlt
          rw [List.getElem?_eq_none (by omega)] at hc
          simp at hc
        simp only [modNode, hc, getNode]
        rw [List.getElem?_set]
        simp only [if_pos rfl, hi, ite_true]
        exact ih c f h
    | unset => simp [getNode] at h
    | regular d => simp [getNode] at h
    | executable d => simp [getNode] at h
    | symlink t => simp [getNode] at h

theorem setName_ok (s : BSt) (h : Handle) (v : String) (s' : BSt)
    (hok : setName s h v = (s', none)) :
    ∃ a f, h = Handle.addr a ∧ getNode s.root a = some f ∧
      s' = { s with root := modNode (fun f => (v, f.2)) s.root a } := by
  cases h with
  | zero => simp [setName] at hok
  | addr a =>
    cases hg : getNode s.root a with
    | none => simp [setName, hg] at hok
    | some f =>
      simp only [setName, hg] at hok
      injection hok with h1 _
      exact ⟨a, f, rfl, hg, h1.symm⟩

theorem setFC_ok (s : BSt) (a : List Nat) (fc : FC) (f : String × FC)
    (hg : getNode s.root a = some f) :
    setFC s (Handle.addr a) fc =
      ({ s with root := modNode (fun f => (f.1, fc)) s.root a }, none) := by
  simp [setFC, hg]

/-- Unfolding `nextChild` at positive fuel into `getParent` followed by
the error-blind continuation. -/
theorem nextChild_succ (fuel : Nat) (s : BSt) (name : String) :
    nextChild (fuel + 1) s name =
      nextChildCont (getParent fuel s name).1 (getParent fuel s name).2.1 name := rfl

/-- Unfolding `getParent` at positive fuel. -/
theorem getParent_succ (fuel : Nat) (s : BSt) (name : String) :
    getParent (fuel + 1) s name =
      (match alGet? s.allFiles (dirname name) with
      | some h => (s, h, none)
      | none =>
        let r := nextChild fuel s (dirname name)
        match r.2.2 with
        | some e => (r.1, r.2.1, some e)
        | none =>
          match newDirectory r.1 r.2.1 (alGetI r.1.dirSizes (dirname name)) with
          | (s2, some e) => (s2, r.2.1, some e)
          | (s2, none) =>
            ({ s2 with allFiles := alSet s2.allFiles (dirname name) r.2.1 }, r.2.1, none)) :=
  rfl

/-- A successful `nextChildCont` returns the address of a real slot
whose name field has just been set to the entry's basename. -/
theorem nextChildCont_ok (s' : BSt) (P : Handle) (p : String) (s1 : BSt) (h : Handle)
    (hok : nextChildCont s' P p = (s1, h, none)) :
    ∃ a fc, h = Handle.addr a ∧ getNode s1.root a = some (basename p, fc) := by
  unfold nextChildCont at hok
  cases hd : directoryOf s' P with
  | error e => rw [hd] at hok; simp at hok
  | ok dv =>
    rw [hd] at hok
    simp only at hok
    cases hsn : setName s' (dirViewAt dv ((dirViewLen dv : Int) -
        alGetI s'.dirSizes (dirname p))) (basename p) with
    | mk s2 err =>
      rw [hsn] at hok
      simp only at hok
      injection hok with h1 h23
      injection h23 with h2 h3
      subst h1
      subst h2
      subst h3
      obtain ⟨a, f, ha, hg, hs2⟩ := setName_ok _ _ _ _ hsn
      refine ⟨a, f.2, ha, ?_⟩
      have := getNode_modNode (fun f => (basename p, f.2)) a s'.root f hg
      rw [hs2]
      simpa using this

/-- A successful `nextChild` returns the address of a real slot whose
name field is the entry's basename. -/
theorem nextChild_ok (fuel : Nat) (s : BSt) (p : String) (s1 : BSt) (h : Handle)
    (hok : nextChild fuel s p = (s1, h, none)) :
    ∃ a fc, h = Handle.addr a ∧ getNode s1.root a = some (basename p, fc) := by
  cases fuel with
  | zero => simp [nextChild, walk] at hok
  | succ fuel =>
    rw [nextChild_succ] at hok
    exact nextChildCont_ok _ _ _ _ _ hok

/-! ## Claim C5: entry classification -/

/-- Claim C5: a regular-flagged entry is stored as `regular` exactly
when no execute bit (owner, group or other — mask `0111`) is set among
its permission bits and as `executable` otherwise, and a
symlink-flagged entry stores its link target verbatim. -/
theorem classification :
    (∀ fuel s (e : Header) bytes s1 h, e.typeflag = tarTypeReg →
        alGet? s.allFiles (clean e.name) = none →
        e.content = some bytes →
        nextChild fuel s (clean e.name) = (s1, h, none) →
        ∃ a, h = Handle.addr a ∧ (processEntry fuel s e).2 = none ∧
          getNode (processEntry fuel s e).1.root a =
            some (basename (clean e.name),
              if permOf e &&& 73 = 0 then FC.regular bytes else FC.executable bytes)) ∧
      (∀ fuel s (e : Header) s1 h, e.typeflag = tarTypeSymlink →
        alGet? s.allFiles (clean e.name) = none →
        nextChild fuel s (clean e.name) = (s1, h, none) →
        ∃ a, h = Handle.addr a ∧ (processEntry fuel s e).2 = none ∧
          getNode (processEntry fuel s e).1.root a =
            some (basename (clean e.name), FC.symlink e.linkname)) := by
  constructor
  · intro fuel s e bytes s1 h ht hget hcont hnc
    obtain ⟨a, fc0, ha, hg⟩ := nextChild_ok fuel s (clean e.name) s1 h hnc
    subst ha
    have hpe : processEntry fuel s e =
        ((if permOf e &&& 73 = 0
          then setRegular { s1 with allFiles := alSet s1.allFiles (clean e.name) (Handle.addr a) }
            (Handle.addr a) bytes
          else setExecutable { s1 with allFiles := alSet s1.allFiles (clean e.name) (Handle.addr a) }
            (Handle.addr a) bytes).1, none) := by
      simp only [processEntry, supportedTypeFlag, ht, tarTypeDir, tarTypeReg, tarTypeSymlink,
        hget, hnc, hcont]
      norm_num
    refine ⟨a, rfl, by rw [hpe], ?_⟩
    rw [hpe]
    by_cases hperm : permOf e &&& 73 = 0
    · have hset := setFC_ok
        { s1 with allFiles := alSet s1.allFiles (clean e.name) (Handle.addr a) } a
        (FC.regular bytes) (basename (clean e.name), fc0) hg
      rw [if_pos hperm, if_pos hperm, setRegular, hset]
      simpa using getNode_modNode (fun f => (f.1, FC.regular bytes)) a s1.root _ hg
    · have hset := setFC_ok
        { s1 with allFiles := alSet s1.allFiles (clean e.name) (Handle.addr a) } a
        (FC.executable bytes) (basename (clean e.name), fc0) hg
      rw [if_neg hperm, if_neg hperm, setExecutable, hset]
      simpa using getNode_modNode (fun f => (f.1, FC.executable bytes)) a s1.root _ hg
  · intro fuel s e s1 h ht hget hnc
    obtain ⟨a, fc0, ha, hg⟩ := nextChild_ok fuel s (clean e.name) s1 h hnc
    subst ha
    have hpe : processEntry fuel s e =
        setSymlink { s1 with allFiles := alSet s1.allFiles (clean e.name) (Handle.addr a) }
          (Handle.addr a) e.linkname := by
      simp only [processEntry, supportedTypeFlag, ht, tarTypeDir, tarTypeReg, tarTypeSymlink,
        hget, hnc]
      norm_num
    have hset := setFC_ok
      { s1 with allFiles := alSet s1.allFiles (clean e.name) (Handle.addr a) } a
      (FC.symlink e.linkname) (basename (clean e.name), fc0) hg
    refine ⟨a, rfl, ?_, ?_⟩
    · rw [hpe, setSymlink, hset]
    · rw [hpe, setSymlink, hset]
      simpa using getNode_modNode (fun f => (f.1, FC.symlink e.linkname)) a s1.root _ hg

/-- A build state whose root directory has a single free slot. -/
def oneSlotState : BSt :=
  { dirSizes := [(".", (1 : Int))]
  , allFiles := [(".", Handle.addr [])]
  , root := ("", FC.directory [("", FC.unset)]) }

/-! ## Path components

To state (and prove) the amended count/build agreement we describe
normalized relative paths by their slash-separated components. -/

/-- Split a character list on `'/'` (always returns at least one,
possibly empty, component). -/
def splitC : List Char → List (List Char)
  | [] => [[]]
  | c :: rest =>
    match splitC rest with
    | [] => [[]]
    | comp :: comps => if c = '/' then [] :: comp :: comps else (c :: comp) :: comps

/-- Join components with `'/'`. -/
def joinC : List (List Char) → List Char
  | [] => []
  | [c] => c
  | c :: rest => c ++ '/' :: joinC rest

theorem splitC_ne_nil : ∀ l : List Char, splitC l ≠ [] := by
  intro l
  cases l with
  | nil => simp [splitC]
  | cons c rest =>
    simp only [splitC]
    cases splitC rest with
    | nil => simp
    | cons comp comps =>
      by_cases h : c = '/' <;> simp [h]

theorem joinC_cons (c : List Char) (rest : List (List Char)) (h : rest ≠ []) :
    joinC (c :: rest) = c ++ '/' :: joinC rest := by
  cases rest with
  | nil => exact absurd rfl h
  | cons d t => rfl

theorem joinC_splitC : ∀ l : List Char, joinC (splitC l) = l := by
  intro l
  induction l with
  | nil => simp [splitC, joinC]
  | cons c rest ih =>
    cases hs : splitC rest with
    | nil => exact absurd hs (splitC_ne_nil rest)
    | cons comp comps =>
      rw [hs] at ih
      simp only [splitC, hs]
      by_cases h : c = '/'
      · subst h
        simp only [if_true]
        rw [joinC_cons _ _ (by simp)]
        rw [ih]
        rfl
      · rw [if_neg h]
        cases comps with
        | nil =>
          simp only [joinC] at ih ⊢
          rw [ih]
        | cons d t =>
          rw [joinC_cons _ _ (by simp), List.cons_append]
          rw [joinC_cons _ _ (by simp)] at ih
          rw [ih]

theorem splitC_append_noslash (c : List Char) (l : List Char) (h : '/' ∉ c) :
    splitC (c ++ '/' :: l) = c :: splitC l := by
  induction c with
  | nil =>
    simp only [List.nil_append, splitC]
    cases hs : splitC l with
    | nil => exact absurd hs (splitC_ne_nil l)
    | cons comp comps => simp
  | cons ch c' ih =>
    have hch : ch ≠ '/' := by intro he; exact h (he ▸ List.mem_cons_self ch c')
    have h' : '/' ∉ c' := fun hm => h (List.mem_cons_of_mem ch hm)
    simp only [List.cons_append, splitC]
    cases hs : splitC (c' ++ '/' :: l) with
    | nil => exact absurd hs (splitC_ne_nil _)
    | cons comp comps =>
      have hcc := (ih h').symm.trans hs
      injection hcc with h1 h2
      subst h1
      subst h2
      simp [hch]

theorem splitC_noslash (c : List Char) (hne : c ≠ []) (h : '/' ∉ c) :
    splitC c = [c] := by
  induction c with
  | nil => exact absurd rfl hne
  | cons ch c' ih =>
    have hch : ch ≠ '/' := by intro he; exact h (he ▸ List.mem_cons_self ch c')
    have h' : '/' ∉ c' := fun hm => h (List.mem_cons_of_mem ch hm)
    cases c' with
    | nil => simp [splitC, hch]
    | cons d t =>
      simp only [splitC] at ih ⊢
      rw [ih (by simp) h']
      simp [hch]

theorem splitC_joinC : ∀ comps : List (List Char), comps ≠ [] →
    (∀ c ∈ comps, c ≠ [] ∧ '/' ∉ c) → splitC (joinC comps) = comps := by
  intro comps
  induction comps with
  | nil => intro h; exact absurd rfl h
  | cons c rest ih =>
    intro _ hall
    obtain ⟨hc, hcs⟩ := hall c (List.mem_cons_self c rest)
    cases rest with
    | nil => simpa [joinC] using splitC_noslash c hc hcs
    | cons d t =>
      rw [joinC_cons _ _ (by simp), splitC_append_noslash c _ hcs,
        ih (by simp) (fun x hx => hall x (List.mem_cons_of_mem c hx))]

/-- A path component is simple: nonempty, not `"."`, not `".."`, and
slash-free. -/
def simpleComp (c : List Char) : Bool :=
  c ≠ [] ∧ c ≠ ['.'] ∧ c ≠ ['.', '.'] ∧ '/' ∉ c

/-- Join of the given components, as a string. -/
def pathStr (comps : List (List Char)) : String := String.mk (joinC comps)

theorem joinC_append_single (comps : List (List Char)) (c : List Char) (h : comps ≠ []) :
    joinC (comps ++ [c]) = joinC comps ++ '/' :: c := by
  induction comps with
  | nil => exact absurd rfl h
  | cons d rest ih =>
    cases rest with
    | nil => simp [joinC]
    | cons d2 t =>
      rw [List.cons_append, joinC_cons _ _ (by simp), joinC_cons _ _ (by simp), ih (by simp)]
      simp

theorem takeWhile_noslash_append (A B : List Char) (hA : '/' ∉ A)
    (hB : B = [] ∨ B.head? = some '/') :
    (A ++ B).takeWhile (fun x => x ≠ '/') = A ∧
      (A ++ B).dropWhile (fun x => x ≠ '/') = B := by
  induction A with
  | nil =>
    rcases hB with hB | hB
    · subst hB; simp
    · cases B with
      | nil => simp
      | cons b B' =>
        simp only [Option.some.injEq, List.head?] at hB
        subst hB
        simp [List.takeWhile, List.dropWhile]
  | cons a A' ih =>
    have ha : a ≠ '/' := by intro he; exact hA (he ▸ List.mem_cons_self a A')
    have hA' : '/' ∉ A' := fun hm => hA (List.mem_cons_of_mem a hm)
    obtain ⟨ht, hd⟩ := ih hA'
    constructor
    · rw [List.cons_append, List.takeWhile_cons_of_pos (by simpa using ha), ht]
    · rw [List.cons_append, List.dropWhile_cons_of_pos (by simpa using ha), hd]

theorem cleanLoop_slashes (rooted : Bool) :
    ∀ (sl : List Char), (∀ x ∈ sl, x = '/') →
      ∀ fuel out dotdot, sl.length ≤ fuel →
        cleanLoop rooted fuel sl out dotdot = out := by
  intro sl
  induction sl with
  | nil =>
    intro _ fuel out dotdot _
    cases fuel <;> rfl
  | cons c rest ih =>
    intro hsl fuel out dotdot hf
    have hc : c = '/' := hsl c (List.mem_cons_self c rest)
    cases fuel with
    | zero => simp at hf
    | succ fuel =>
      subst hc
      rw [cleanLoop, if_pos rfl]
      exact ih (fun x hx => hsl x (List.mem_cons_of_mem _ hx)) fuel out dotdot
        (by simpa using hf)

theorem simpleComp_elim (c : List Char) (hc : simpleComp c = true) :
    ∃ ch ct, c = ch :: ct ∧ ch ≠ '/' ∧ '/' ∉ ct ∧
      ch :: ct ≠ ['.'] ∧ ch :: ct ≠ ['.', '.'] := by
  simp only [simpleComp, Bool.decide_and, Bool.and_eq_true, decide_eq_true_eq] at hc
  obtain ⟨hc0, hc1, hc2, hc3⟩ := hc
  cases c with
  | nil => exact absurd rfl hc0
  | cons ch ct =>
    refine ⟨ch, ct, rfl, ?_, ?_, hc1, hc2⟩
    · intro he; exact hc3 (he ▸ List.mem_cons_self ch ct)
    · exact fun hm => hc3 (List.mem_cons_of_mem ch hm)

/-- One simple component at the head of the input is copied verbatim by
`cleanLoop` (none of the `.`/`..`/empty-element guards fire). -/
theorem cleanLoop_component (ch : Char) (ct after out : List Char) (dotdot f : Nat)
    (hch : ch ≠ '/') (hct : '/' ∉ ct)
    (hne1 : ch :: ct ≠ ['.']) (hne2 : ch :: ct ≠ ['.', '.'])
    (hafter : after = [] ∨ after.head? = some '/') :
    cleanLoop false (f + 1) (ch :: (ct ++ after)) out dotdot =
      cleanLoop false f after
        ((ch :: ct).reverse ++ (if out.length ≠ 0 then '/' :: out else out)) dotdot := by
  have g2 : ¬(ch = '.' ∧ ((ct ++ after).head? = none ∨ (ct ++ after).head? = some '/')) := by
    rintro ⟨hdot, hd⟩
    subst hdot
    cases ct with
    | nil => exact hne1 rfl
    | cons x ct2 =>
      have hx : x ≠ '/' := fun he => hct (he ▸ List.mem_cons_self x ct2)
      rcases hd with hd | hd
      · rw [List.cons_append] at hd; simp [List.head?] at hd
      · rw [List.cons_append] at hd
        simp only [List.head?, Option.some.injEq] at hd
        exact hx hd
  have g3 : ¬(ch = '.' ∧ (ct ++ after).head? = some '.' ∧
      ((ct ++ after).tail.head? = none ∨ (ct ++ after).tail.head? = some '/')) := by
    rintro ⟨hdot, hd2, hd3⟩
    subst hdot
    cases ct with
    | nil => exact hne1 rfl
    | cons x ct2 =>
      have hx : x = '.' := by
        rw [List.cons_append] at hd2
        simpa [List.head?] using hd2
      subst hx
      cases ct2 with
      | nil => exact hne2 rfl
      | cons y ct3 =>
        have hy : y ≠ '/' := fun he =>
          hct (he ▸ List.mem_cons_of_mem '.' (List.mem_cons_self y ct3))
        rcases hd3 with hd3 | hd3
        · simp [List.cons_append, List.tail_cons, List.head?] at hd3
        · simp only [List.cons_append, List.tail_cons, List.head?,
            Option.some.injEq] at hd3
          exact hy hd3
  obtain ⟨htake, hdrop⟩ := takeWhile_noslash_append ct after hct hafter
  rw [cleanLoop, if_neg hch, if_neg g2, if_neg g3]
  rw [htake, hdrop]
  have hcond : ((false = true ∧ out.length ≠ 1) ∨ (false = false ∧ out.length ≠ 0)) ↔
      out.length ≠ 0 := by simp
  rw [if_congr hcond rfl rfl]
  simp [List.reverse_cons, List.append_assoc]

/-- `cleanLoop` on a nonempty simple relative path (possibly with
trailing slashes) reproduces the joined components. -/
theorem cleanLoop_run (comps : List (List Char)) :
    comps ≠ [] → (∀ c ∈ comps, simpleComp c = true) →
    ∀ (slashes : List Char), (∀ x ∈ slashes, x = '/') →
    ∀ fuel, (joinC comps ++ slashes).length + 1 ≤ fuel → ∀ out dotdot,
      cleanLoop false fuel (joinC comps ++ slashes) out dotdot =
        (joinC comps).reverse ++ (if out.length ≠ 0 then '/' :: out else out) := by
  induction comps with
  | nil => intro h; exact absurd rfl h
  | cons c rest ih =>
    intro _ hall slashes hsl fuel hf out dotdot
    obtain ⟨ch, ct, hcct, hch, hct, hne1, hne2⟩ :=
      simpleComp_elim c (hall c (List.mem_cons_self c rest))
    subst hcct
    cases fuel with
    | zero => simp at hf
    | succ f =>
      cases rest with
      | nil =>
        have hafter : slashes = [] ∨ slashes.head? = some '/' := by
          cases slashes with
          | nil => exact Or.inl rfl
          | cons x t => exact Or.inr (by rw [List.head?, hsl x (by simp)])
        have hstep := cleanLoop_component ch ct slashes out dotdot f hch hct hne1 hne2 hafter
        have hj : joinC [ch :: ct] = ch :: ct := rfl
        have hin : joinC [ch :: ct] ++ slashes = ch :: (ct ++ slashes) := by
          rw [hj, List.cons_append]
        rw [hin, hstep]
        rw [cleanLoop_slashes false slashes hsl f _ _ (by
          rw [hin] at hf
          simp only [List.length_cons, List.length_append] at hf
          omega)]
        rw [hj]
      | cons r rs =>
        have hjc : joinC ((ch :: ct) :: r :: rs) = (ch :: ct) ++ '/' :: joinC (r :: rs) :=
          joinC_cons _ _ (by simp)
        have hafter : ('/' :: (joinC (r :: rs) ++ slashes) : List Char) = [] ∨
            ('/' :: (joinC (r :: rs) ++ slashes)).head? = some '/' := Or.inr rfl
        have hstep := cleanLoop_component ch ct ('/' :: (joinC (r :: rs) ++ slashes))
          out dotdot f hch hct hne1 hne2 hafter
        have hin : joinC ((ch :: ct) :: r :: rs) ++ slashes =
            ch :: (ct ++ '/' :: (joinC (r :: rs) ++ slashes)) := by
          rw [hjc]
          simp [List.append_assoc]
        rw [hin, hstep]
        cases f with
        | zero =>
          exfalso
          rw [hin] at hf
          simp only [List.length_cons] at hf
          omega
        | succ f2 =>
          rw [cleanLoop, if_pos rfl]
          rw [ih (by simp) (fun x hx => hall x (List.mem_cons_of_mem _ hx)) slashes hsl f2
            (by
              rw [hin] at hf
              simp only [List.length_append, List.length_cons] at hf ⊢
              omega) _ dotdot]
          have hlen : ((ch :: ct).reverse ++
              (if out.length ≠ 0 then '/' :: out else out)).length ≠ 0 := by
            simp
          rw [if_pos hlen]
          rw [hjc]
          simp [List.reverse_append, List.reverse_cons, List.append_assoc]

theorem joinC_head (ch : Char) (ct : List Char) (rest : List (List Char)) :
    ∃ tl, joinC ((ch :: ct) :: rest) = ch :: tl := by
  cases rest with
  | nil => exact ⟨ct, rfl⟩
  | cons r rs => exact ⟨ct ++ '/' :: joinC (r :: rs), by rw [joinC_cons _ _ (by simp)]; rfl⟩

theorem clean_simple (comps : List (List Char)) (hne : comps ≠ [])
    (hall : ∀ c ∈ comps, simpleComp c = true) :
    clean (pathStr comps) = pathStr comps := by
  obtain ⟨c0, rest, hc0⟩ : ∃ c0 rest, comps = c0 :: rest := by
    cases comps with
    | nil => exact absurd rfl hne
    | cons c0 rest => exact ⟨c0, rest, rfl⟩
  subst hc0
  obtain ⟨ch, ct, hcct, hch, _, _, _⟩ :=
    simpleComp_elim c0 (hall c0 (List.mem_cons_self c0 rest))
  subst hcct
  obtain ⟨tl, hj⟩ := joinC_head ch ct rest
  have hout : cleanLoop false (tl.length + 2) (ch :: tl) [] 0 = (ch :: tl).reverse := by
    have hrun := cleanLoop_run ((ch :: ct) :: rest) hne hall [] (by simp)
      (tl.length + 2) (by simp [hj]) [] 0
    rw [List.append_nil, hj] at hrun
    simpa using hrun
  have harg : pathStr ((ch :: ct) :: rest) = String.mk (ch :: tl) :=
    congrArg String.mk hj
  rw [harg]
  simp only [clean]
  rw [if_neg hch, hout]
  have hlen : ((ch :: tl).reverse.length = 0) = False := by simp
  simp only [hlen, if_false]
  rw [List.reverse_reverse]

theorem clean_simple_slash (comps : List (List Char)) (hne : comps ≠ [])
    (hall : ∀ c ∈ comps, simpleComp c = true) :
    clean (String.mk (joinC comps ++ ['/'])) = pathStr comps := by
  obtain ⟨c0, rest, hc0⟩ : ∃ c0 rest, comps = c0 :: rest := by
    cases comps with
    | nil => exact absurd rfl hne
    | cons c0 rest => exact ⟨c0, rest, rfl⟩
  subst hc0
  obtain ⟨ch, ct, hcct, hch, _, _, _⟩ :=
    simpleComp_elim c0 (hall c0 (List.mem_cons_self c0 rest))
  subst hcct
  obtain ⟨tl, hj⟩ := joinC_head ch ct rest
  have hj2 : joinC ((ch :: ct) :: rest) ++ ['/'] = ch :: (tl ++ ['/']) := by
    rw [hj]; rfl
  have hout : cleanLoop false ((tl ++ ['/']).length + 2) (ch :: (tl ++ ['/'])) [] 0 =
      (joinC ((ch :: ct) :: rest)).reverse := by
    have hrun := cleanLoop_run ((ch :: ct) :: rest) hne hall ['/'] (by simp)
      ((tl ++ ['/']).length + 2) (by simp [hj]) [] 0
    rw [hj2] at hrun
    simpa using hrun
  have harg : String.mk (joinC ((ch :: ct) :: rest) ++ ['/']) =
      String.mk (ch :: (tl ++ ['/'])) := congrArg String.mk hj2
  rw [harg]
  simp only [clean]
  rw [if_neg hch, hout]
  have hlen : ((joinC ((ch :: ct) :: rest)).reverse.length = 0) = False := by
    simp [hj]
  simp only [hlen, if_false]
  rw [List.reverse_reverse]
  rfl

theorem reverse_head_noslash (A B : List Char) (hA : A ≠ []) (hAs : '/' ∉ A) :
    (A.reverse ++ B).dropWhile (fun x => x = '/') = A.reverse ++ B := by
  obtain ⟨d, dr, hd⟩ : ∃ d dr, A.reverse = d :: dr := by
    cases hr : A.reverse with
    | nil => exact absurd (by simpa using congrArg List.reverse hr) hA
    | cons d dr => exact ⟨d, dr, rfl⟩
  have hdm : d ∈ A := by
    have : d ∈ A.reverse := by rw [hd]; exact List.mem_cons_self d dr
    simpa using this
  have hdn : d ≠ '/' := fun he => hAs (he ▸ hdm)
  rw [hd, List.cons_append, List.dropWhile_cons_of_neg (by simpa using hdn)]

theorem dirname_single (c : List Char) (hc : simpleComp c = true) :
    dirname (pathStr [c]) = "." := by
  obtain ⟨ch, ct, hcct, hch, hct, _, _⟩ := simpleComp_elim c hc
  subst hcct
  have hns : '/' ∉ (ch :: ct).reverse := by
    intro hm
    rw [List.mem_reverse] at hm
    rcases List.mem_cons.mp hm with h | h
    · exact hch h.symm
    · exact hct h
  have hdrop : ((ch :: ct).reverse).dropWhile (fun x => x ≠ '/') = [] := by
    have := (takeWhile_noslash_append ((ch :: ct).reverse) [] hns (Or.inl rfl)).2
    simpa using this
  have hgd : goDir (pathStr [ch :: ct]) = "." := by
    unfold goDir
    have hdata : (pathStr [ch :: ct]).data = ch :: ct := rfl
    rw [hdata, hdrop]
    rfl
  unfold dirname
  rw [hgd]
  rfl

theorem dirname_append (comps : List (List Char)) (c : List Char) (hne : comps ≠ [])
    (hall : ∀ x ∈ comps ++ [c], simpleComp x = true) :
    dirname (pathStr (comps ++ [c])) = pathStr comps := by
  have hallc : ∀ x ∈ comps, simpleComp x = true :=
    fun x hx => hall x (List.mem_append_left _ hx)
  obtain ⟨ch, ct, hcct, hch, hct, _, _⟩ :=
    simpleComp_elim c (hall c (List.mem_append_right _ (List.mem_cons_self c [])))
  have hcs : '/' ∉ c := by
    rw [hcct]
    intro hm
    rcases List.mem_cons.mp hm with h | h
    · exact hch h.symm
    · exact hct h
  have hcne : c ≠ [] := by rw [hcct]; simp
  have hdata : (pathStr (comps ++ [c])).data = joinC comps ++ '/' :: c := by
    show joinC (comps ++ [c]) = joinC comps ++ '/' :: c
    exact joinC_append_single comps c hne
  have hrev : (joinC comps ++ '/' :: c).reverse =
      c.reverse ++ '/' :: (joinC comps).reverse := by
    rw [List.reverse_append, List.reverse_cons]
    simp [List.append_assoc]
  have hcrs : '/' ∉ c.reverse := by simpa using hcs
  have hdrop : (c.reverse ++ '/' :: (joinC comps).reverse).dropWhile
      (fun x => x ≠ '/') = '/' :: (joinC comps).reverse :=
    (takeWhile_noslash_append c.reverse ('/' :: (joinC comps).reverse) hcrs
      (Or.inr rfl)).2
  have hgd : goDir (pathStr (comps ++ [c])) = pathStr comps := by
    unfold goDir
    rw [hdata, hrev, hdrop]
    have : ('/' :: (joinC comps).reverse).reverse = joinC comps ++ ['/'] := by
      simp
    rw [this]
    exact clean_simple_slash comps hne hallc
  unfold dirname
  rw [hgd]
  exact clean_simple comps hne hallc

theorem basename_append (comps : List (List Char)) (c : List Char)
    (hall : ∀ x ∈ comps ++ [c], simpleComp x = true) :
    basename (pathStr (comps ++ [c])) = String.mk c := by
  obtain ⟨ch, ct, hcct, hch, hct, _, _⟩ :=
    simpleComp_elim c (hall c (List.mem_append_right _ (List.mem_cons_self c [])))
  have hcs : '/' ∉ c := by
    rw [hcct]
    intro hm
    rcases List.mem_cons.mp hm with h | h
    · exact hch h.symm
    · exact hct h
  have hcne : c ≠ [] := by rw [hcct]; simp
  have hcrs : '/' ∉ c.reverse := by simpa using hcs
  have hcmem : c ∈ comps ++ [c] := List.mem_append_right comps (by simp)
  have hclean : clean (String.mk c) = String.mk c := by
    have := clean_simple [c] (by simp) (by
      intro x hx
      rw [List.mem_singleton.mp hx]
      exact hall c hcmem)
    simpa [pathStr, joinC] using this
  cases comps with
  | nil =>
    have hdata : (pathStr ([] ++ [c])).data = c := by
      show joinC [c] = c
      rfl
    have hnemp : pathStr ([] ++ [c]) ≠ "" := by
      intro he
      exact hcne (by simpa [hdata] using congrArg String.data he)
    unfold basename goBase
    rw [if_neg hnemp, hdata]
    have hstr : (c.reverse ++ ([] : List Char)).dropWhile (fun x => x = '/') =
        c.reverse ++ [] := reverse_head_noslash c [] hcne hcs
    rw [List.append_nil] at hstr
    have htake : c.reverse.takeWhile (fun x => x ≠ '/') = c.reverse := by
      have := (takeWhile_noslash_append c.reverse [] hcrs (Or.inl rfl)).1
      simpa using this
    have hie : c.reverse.isEmpty = false := by
      cases hc' : c.reverse with
      | nil => exact absurd (by simpa using congrArg List.reverse hc') hcne
      | cons d dr => rfl
    simp only [hstr, htake, hie, Bool.false_eq_true, if_false, List.reverse_reverse]
    exact hclean
  | cons d ds =>
    have hdata : (pathStr ((d :: ds) ++ [c])).data = joinC (d :: ds) ++ '/' :: c :=
      joinC_append_single (d :: ds) c (by simp)
    have hnemp : pathStr ((d :: ds) ++ [c]) ≠ "" := by
      intro he
      have := congrArg String.data he
      rw [hdata] at this
      simp at this
    unfold basename goBase
    rw [if_neg hnemp, hdata]
    have hrev : (joinC (d :: ds) ++ '/' :: c).reverse =
        c.reverse ++ '/' :: (joinC (d :: ds)).reverse := by
      rw [List.reverse_append, List.reverse_cons]
      simp [List.append_assoc]
    have hstr := reverse_head_noslash c ('/' :: (joinC (d :: ds)).reverse) hcne hcs
    have htake : (c.reverse ++ '/' :: (joinC (d :: ds)).reverse).takeWhile
        (fun x => x ≠ '/') = c.reverse :=
      (takeWhile_noslash_append c.reverse ('/' :: (joinC (d :: ds)).reverse) hcrs
        (Or.inr rfl)).1
    have hie : c.reverse.isEmpty = false := by
      cases hc' : c.reverse with
      | nil => exact absurd (by simpa using congrArg List.reverse hc') hcne
      | cons d2 dr => rfl
    simp only [hrev, hstr, htake, hie, Bool.false_eq_true, if_false, List.reverse_reverse]
    exact hclean

theorem pathStr_inj (c1 c2 : List (List Char)) (h1 : c1 ≠ [])
    (hs1 : ∀ x ∈ c1, simpleComp x = true) (h2 : c2 ≠ [])
    (hs2 : ∀ x ∈ c2, simpleComp x = true) (he : pathStr c1 = pathStr c2) : c1 = c2 := by
  have hd : joinC c1 = joinC c2 := congrArg String.data he
  have hcomp : ∀ c : List (List Char), (∀ x ∈ c, simpleComp x = true) →
      ∀ x ∈ c, x ≠ [] ∧ '/' ∉ x := by
    intro c hc x hx
    obtain ⟨ch, ct, hcct, hch, hct, _, _⟩ := simpleComp_elim x (hc x hx)
    subst hcct
    refine ⟨by simp, ?_⟩
    intro hm
    rcases List.mem_cons.mp hm with h | h
    · exact hch h.symm
    · exact hct h
  rw [← splitC_joinC c1 h1 (hcomp c1 hs1), ← splitC_joinC c2 h2 (hcomp c2 hs2), hd]

theorem string_mk_data (s : String) : String.mk s.data = s := by
  cases s with
  | mk data => rfl

/-! ## Pass-1 counting -/

/-- The number of supported entries of `es` whose normalized parent is
`P` — the reference value of `dirSizes[P]` after pass 1. -/
def count0 (es : List Header) (P : String) : Int :=
  ((es.filter (fun e => supportedTypeFlag e &&
    decide (dirname (clean e.name) = P))).length : Int)

theorem alGetI_alSet (m : List (String × Int)) (k : String) (v : Int) (P : String) :
    alGetI (alSet m k v) P = if k = P then v else alGetI m P := by
  by_cases h : k = P
  · subst h
    simp [alGetI, alGet?_alSet_self]
  · simp [alGetI, alGet?_alSet_other m k P v h, h]

theorem alGetI_ensure (m : List (String × Int)) (k : String) (P : String) :
    alGetI (alSet m k (alGetI m k)) P = alGetI m P := by
  rw [alGetI_alSet]
  by_cases h : k = P
  · subst h; simp
  · simp [h]

theorem alGetI_dirStep (m : List (String × Int)) (e : Header) (P : String) :
    alGetI (dirStep m e) P = alGetI m P +
      (if supportedTypeFlag e = true ∧ dirname (clean e.name) = P then 1 else 0) := by
  simp only [dirStep]
  by_cases hd : e.typeflag = tarTypeDir
  · have hs : supportedTypeFlag e = true := by simp [supportedTypeFlag, hd]
    rw [if_pos hd, alGetI_alSet, alGetI_ensure, alGetI_ensure]
    by_cases hp : dirname (clean e.name) = P
    · rw [if_pos hp, if_pos ⟨hs, hp⟩, hp]
    · rw [if_neg hp, if_neg (fun hc => hp hc.2)]
      omega
  · by_cases hr : e.typeflag = tarTypeReg ∨ e.typeflag = tarTypeSymlink
    · have hs : supportedTypeFlag e = true := by
        simp only [supportedTypeFlag]
        rcases hr with h | h <;> simp [h]
      rw [if_neg hd, if_pos hr, alGetI_alSet]
      by_cases hp : dirname (clean e.name) = P
      · rw [if_pos hp, if_pos ⟨hs, hp⟩, hp]
      · rw [if_neg hp, if_neg (fun hc => hp hc.2)]
        omega
    · have hs : supportedTypeFlag e = false := by
        rw [not_or] at hr
        simp [supportedTypeFlag, hd, hr.1, hr.2]
      rw [if_neg hd, if_neg hr, if_neg (by rw [hs]; simp)]
      omega

theorem count0_cons (e : Header) (t : List Header) (P : String) :
    count0 (e :: t) P = (if supportedTypeFlag e = true ∧
      dirname (clean e.name) = P then 1 else 0) + count0 t P := by
  unfold count0
  rw [List.filter_cons]
  by_cases hp : (supportedTypeFlag e && decide (dirname (clean e.name) = P)) = true
  · have h' : supportedTypeFlag e = true ∧ dirname (clean e.name) = P := by
      simpa [Bool.and_eq_true, decide_eq_true_eq] using hp
    rw [if_pos hp, if_pos h']
    simp only [List.length_cons]
    push_cast
    ring
  · have h' : ¬(supportedTypeFlag e = true ∧ dirname (clean e.name) = P) := by
      simpa [Bool.and_eq_true, decide_eq_true_eq] using hp
    rw [if_neg hp, if_neg h']
    omega

theorem foldl_dirStep_count (es : List Header) : ∀ (m : List (String × Int)) (P : String),
    alGetI (es.foldl dirStep m) P = alGetI m P + count0 es P := by
  induction es with
  | nil => intro m P; simp [count0]
  | cons e t ih =>
    intro m P
    rw [List.foldl_cons, ih, alGetI_dirStep, count0_cons]
    ring

/-- The value of pass 1's map at any key is the number of supported
entries whose normalized parent is that key. -/
theorem getDirSizes_count (layers : List (List Header)) (P : String) :
    alGetI (getDirSizes layers) P = count0 layers.flatten P := by
  unfold getDirSizes
  rw [← foldl_flatten' dirStep layers [], foldl_dirStep_count]
  simp [alGetI, alGet?]

theorem count0_nonneg (es : List Header) (P : String) : 0 ≤ count0 es P := by
  unfold count0
  positivity

/-! ## Shape view of nodes and address lemmas -/

/-- Shape-level view of a union value: leaves with payloads, directories
by length only (their child lists evolve during the build). -/
inductive FCShape where
  | unset
  | regular (data : List Nat)
  | executable (data : List Nat)
  | symlink (target : String)
  | directory (len : Nat)
deriving DecidableEq, Repr

def shapeOf : FC → FCShape
  | .unset => .unset
  | .regular d => .regular d
  | .executable d => .executable d
  | .symlink t => .symlink t
  | .directory ch => .directory ch.length

/-- Name and shape of the node at an address. -/
def nodeInfo (r : String × FC) (a : List Nat) : Option (String × FCShape) :=
  (getNode r a).map (fun f => (f.1, shapeOf f.2))

/-- `b` is an ancestor-or-self address of `a`. -/
def addrLe (b a : List Nat) : Prop := ∃ t, b ++ t = a

theorem addrLe_nil (a : List Nat) : addrLe [] a := ⟨a, rfl⟩

theorem addrLe_cons_iff (j i : Nat) (b a : List Nat) :
    addrLe (j :: b) (i :: a) ↔ j = i ∧ addrLe b a := by
  constructor
  · rintro ⟨t, ht⟩
    rw [List.cons_append] at ht
    injection ht with h1 h2
    exact ⟨h1, t, h2⟩
  · rintro ⟨h1, t, ht⟩
    exact ⟨t, by rw [List.cons_append, h1, ht]⟩

theorem addrLe_refl (a : List Nat) : addrLe a a := ⟨[], by simp⟩

theorem addrLe_append (b : List Nat) (t : List Nat) : addrLe b (b ++ t) := ⟨t, rfl⟩

/-- Modifying the tree at address `b` preserves names and shapes at
every address that is not at-or-below `b` (ancestors keep their
directory lengths, disjoint branches are untouched). -/
theorem nodeInfo_modNode_of_not_le (g : (String × FC) → (String × FC)) :
    ∀ (b : List Nat) (r : String × FC) (a : List Nat), ¬ addrLe b a →
      nodeInfo (modNode g r b) a = nodeInfo r a := by
  intro b
  induction b with
  | nil => intro r a h; exact absurd (addrLe_nil a) h
  | cons j b' ih =>
    intro r a h
    obtain ⟨n, fc⟩ := r
    cases fc with
    | directory ch =>
      cases hc : ch[j]? with
      | none => simp [modNode, hc]
      | some c =>
        have hj : j < ch.length := by
          by_contra hlt
          rw [List.getElem?_eq_none (by omega)] at hc
          simp at hc
        cases a with
        | nil =>
          simp [nodeInfo, modNode, hc, getNode, shapeOf]
        | cons i a' =>
          by_cases hij : j = i
          · subst hij
            have hna : ¬ addrLe b' a' := by
              intro hle
              exact h ((addrLe_cons_iff j j b' a').mpr ⟨rfl, hle⟩)
            simp only [nodeInfo, modNode, hc, getNode]
            rw [List.getElem?_set, if_pos rfl]
            simp only [hj, ite_true]
            have := ih c a' hna
            simpa [nodeInfo, getNode] using this
          · simp only [nodeInfo, modNode, hc, getNode]
            rw [List.getElem?_set_ne hij]
    | unset => simp [modNode]
    | regular d => simp [modNode]
    | executable d => simp [modNode]
    | symlink t => simp [modNode]

theorem getNode_append (r : String × FC) :
    ∀ (a b : List Nat) (f : String × FC), getNode r a = some f →
      getNode r (a ++ b) = getNode f b := by
  intro a
  induction a generalizing r with
  | nil =>
    intro b f h
    simp only [getNode, Option.some.injEq] at h
    subst h
    simp
  | cons i a' ih =>
    intro b f h
    obtain ⟨n, fc⟩ := r
    cases fc with
    | directory ch =>
      simp only [getNode] at h
      cases hc : ch[i]? with
      | none => rw [hc] at h; simp at h
      | some c =>
        rw [hc] at h
        rw [List.cons_append]
        simp only [getNode, hc]
        exact ih c b f h
    | unset => simp [getNode] at h
    | regular d => simp [getNode] at h
    | executable d => simp [getNode] at h
    | symlink t => simp [getNode] at h

theorem getNode_child (n : String) (ch : List (String × FC)) (i : Nat) :
    getNode (n, FC.directory ch) [i] = ch[i]? := by
  cases hc : ch[i]? <;> simp [getNode, hc]

/-! ## Filter-counting helpers -/

theorem filter_length_mono {α : Type} (l : List α) (p q : α → Bool)
    (himp : ∀ x ∈ l, q x = true → p x = true) :
    (l.filter q).length ≤ (l.filter p).length := by
  induction l with
  | nil => simp
  | cons a t ih =>
    have ih' := ih (fun x hx => himp x (List.mem_cons_of_mem a hx))
    rw [List.filter_cons, List.filter_cons]
    by_cases hq : q a = true
    · rw [if_pos hq, if_pos (himp a (List.mem_cons_self a t) hq)]
      simpa using ih'
    · rw [if_neg hq]
      by_cases hp : p a = true
      · rw [if_pos hp]
        exact le_trans ih' (by simp)
      · rw [if_neg hp]
        exact ih'

theorem filter_length_lt {α : Type} (l : List α) (p q : α → Bool)
    (himp : ∀ x ∈ l, q x = true → p x = true) (x0 : α) (hx0 : x0 ∈ l)
    (hp : p x0 = true) (hq : q x0 = false) :
    (l.filter q).length < (l.filter p).length := by
  induction l with
  | nil => simp at hx0
  | cons a t ih =>
    rw [List.filter_cons, List.filter_cons]
    rcases List.mem_cons.mp hx0 with h0 | h0
    · subst h0
      rw [if_neg (by simp [hq]), if_pos hp]
      have := filter_length_mono t p q (fun x hx => himp x (List.mem_cons_of_mem x0 hx))
      simpa using Nat.lt_succ_of_le this
    · have ih' := ih (fun x hx => himp x (List.mem_cons_of_mem a hx)) h0
      by_cases hqa : q a = true
      · rw [if_pos hqa, if_pos (himp a (List.mem_cons_self a t) hqa)]
        simpa using ih'
      · rw [if_neg hqa]
        by_cases hpa : p a = true
        · rw [if_pos hpa]
          exact lt_of_lt_of_le ih' (by simp)
        · rw [if_neg hpa]
          exact ih'

/-! ## Coherent streams (the hypotheses of the amended claim C1) -/

/-- The components of an entry's normalized path. -/
def compsOf (e : Header) : List (List Char) := splitC (clean e.name).data

/-- The supported entries of the flattened stream, in order. -/
def suppEntries (layers : List (List Header)) : List Header :=
  layers.flatten.filter (fun e => supportedTypeFlag e)

/-- The nonempty strict prefixes of a component list (the ancestor
chain, shallowest first). -/
def strictPrefixes (l : List (List Char)) : List (List (List Char)) :=
  (List.range (l.length - 1)).map (fun k => l.take (k + 1))

/-- Coherence of an entry stream (the hypotheses of the amended claim
C1): every supported entry's normalized path is a chain of simple
components (so in particular relative, not `"."`, and free of `".."`),
no normalized path occurs twice among supported entries, every proper
ancestor of a supported entry's path occurs somewhere in the stream as
an explicit directory entry, and every regular entry's content is
readable. -/
def coherentStream (layers : List (List Header)) : Bool :=
  let es := suppEntries layers
  es.all (fun e => (compsOf e).all simpleComp) &&
  decide ((es.map (fun e => clean e.name)).Nodup) &&
  es.all (fun e => (strictPrefixes (compsOf e)).all
    (fun pre => es.any (fun e2 => decide (e2.typeflag = tarTypeDir) &&
      decide (clean e2.name = pathStr pre)))) &&
  es.all (fun e => decide (e.typeflag ≠ tarTypeReg) || e.content.isSome)

theorem pathOf_eq (e : Header) : clean e.name = pathStr (compsOf e) := by
  unfold compsOf pathStr
  rw [joinC_splitC, string_mk_data]

theorem compsOf_ne_nil (e : Header) : compsOf e ≠ [] := splitC_ne_nil _

theorem pathStr_ne_dot (comps : List (List Char)) (hne : comps ≠ [])
    (hall : ∀ x ∈ comps, simpleComp x = true) : pathStr comps ≠ "." := by
  intro he
  have hd : joinC comps = ['.'] := congrArg String.data he
  have hsplit : comps = [['.']] := by
    have h1 : splitC (joinC comps) = comps := splitC_joinC comps hne (by
      intro x hx
      obtain ⟨ch, ct, hcct, hch, hct, _, _⟩ := simpleComp_elim x (hall x hx)
      subst hcct
      refine ⟨by simp, ?_⟩
      intro hm
      rcases List.mem_cons.mp hm with h | h
      · exact hch h.symm
      · exact hct h)
    rw [hd] at h1
    rw [← h1]
    rfl
  have := hall ['.'] (by rw [hsplit]; simp)
  simp [simpleComp] at this

theorem pathStr_ne_empty (comps : List (List Char)) (hne : comps ≠ [])
    (hall : ∀ x ∈ comps, simpleComp x = true) : pathStr comps ≠ "" := by
  intro he
  have hd : joinC comps = [] := congrArg String.data he
  obtain ⟨c0, rest, hc0⟩ : ∃ c0 rest, comps = c0 :: rest := by
    cases comps with
    | nil => exact absurd rfl hne
    | cons c0 rest => exact ⟨c0, rest, rfl⟩
  subst hc0
  obtain ⟨ch, ct, hcct, _, _, _, _⟩ :=
    simpleComp_elim c0 (hall c0 (List.mem_cons_self c0 rest))
  subst hcct
  obtain ⟨tl, hj⟩ := joinC_head ch ct rest
  rw [hj] at hd
  simp at hd

/-! ## The build invariant -/

/-- Number of supported entries of `es` with parent `P` whose own path
is already registered in the name index — the number of slots of `P`
handed out so far. -/
def placedCount (es : List Header) (af : List (String × Handle)) (P : String) : Int :=
  ((es.filter (fun e => supportedTypeFlag e && decide (dirname (clean e.name) = P) &&
    (alGet? af (clean e.name)).isSome)).length : Int)

/-- The name stored in the slot of a registered path (the synthetic
root keeps its empty name). -/
def nodeName (q : String) : String := if q = "." then "" else basename q

/-- The shape a registered path's node must have, given the processed
prefix `done` of the stream: leaf entries that have already been
processed determine leaf shapes, everything else (the root, explicit
and implicit directories) is a directory preallocated with its pass-1
count. -/
def shapeSpec (es done : List Header) (q : String) : FCShape :=
  match done.find? (fun e => supportedTypeFlag e && decide (clean e.name = q) &&
      decide (e.typeflag ≠ tarTypeDir)) with
  | some e =>
    if e.typeflag = tarTypeSymlink then FCShape.symlink e.linkname
    else
      match e.content with
      | some bytes => if permOf e &&& 73 = 0 then FCShape.regular bytes
          else FCShape.executable bytes
      | none => FCShape.unset
  | none => FCShape.directory (count0 es q).toNat

/-- The coherence facts of `coherentStream`, restated on the
supported-entry list `es` itself as the hypotheses the build induction
consumes. -/
structure GoodEs (es : List Header) : Prop where
  supp : ∀ e ∈ es, supportedTypeFlag e = true
  simple : ∀ e ∈ es, ∀ x ∈ compsOf e, simpleComp x = true
  nodup : (es.map (fun e => clean e.name)).Nodup
  anc : ∀ e ∈ es, ∀ pre ∈ strictPrefixes (compsOf e),
    ∃ e2 ∈ es, e2.typeflag = tarTypeDir ∧ clean e2.name = pathStr pre
  read : ∀ e ∈ es, e.typeflag = tarTypeReg → e.content.isSome = true

/-- The structural part of the build invariant: `es` is the full
supported-entry list, `done` the processed prefix of the flattened
stream, `K` the component lists of the registered non-root paths.  Slot
occupancy is measured by `placedCount`; the countdown map `s.dirSizes`
is constrained separately (`Inv`), because between a slot allocation and
the registration of its path the countdown runs one ahead. -/
structure InvCore (es done : List Header) (K : List (List (List Char))) (s : BSt) : Prop where
  kSimple : ∀ comps ∈ K, comps ≠ [] ∧ ∀ x ∈ comps, simpleComp x = true
  kClosed : ∀ comps ∈ K, ∀ k, 0 < k → k < List.length comps → comps.take k ∈ K
  kEntry : ∀ comps ∈ K, ∃ e ∈ es, supportedTypeFlag e = true ∧ clean e.name = pathStr comps
  rootKey : alGet? s.allFiles "." = some (Handle.addr [])
  keysIff : ∀ q : String, (alGet? s.allFiles q).isSome = true ↔
    (q = "." ∨ ∃ comps ∈ K, q = pathStr comps)
  doneEs : ∀ e' ∈ done, supportedTypeFlag e' = true → e' ∈ es
  doneReg : ∀ e' ∈ done, supportedTypeFlag e' = true →
    (alGet? s.allFiles (clean e'.name)).isSome = true
  kDirOrDone : ∀ comps ∈ K, ∀ e' ∈ es, clean e'.name = pathStr comps → e' ∉ done →
    e'.typeflag = tarTypeDir
  nodes : ∀ q h, alGet? s.allFiles q = some h → ∃ a, h = Handle.addr a ∧
    (q = "." → a = []) ∧
    nodeInfo s.root a = some (nodeName q, shapeSpec es done q)
  addrInj : ∀ q1 q2 h1 h2, alGet? s.allFiles q1 = some h1 →
    alGet? s.allFiles q2 = some h2 → h1 = h2 → q1 = q2
  parentLink : ∀ q h, alGet? s.allFiles q = some h → q ≠ "." →
    ∃ (aP : List Nat) (i : Nat), alGet? s.allFiles (dirname q) = some (Handle.addr aP) ∧
      h = Handle.addr (aP ++ [i]) ∧
      (i : Int) < placedCount es s.allFiles (dirname q)
  slotsFilled : ∀ P aP, alGet? s.allFiles P = some (Handle.addr aP) →
    ∀ i : Nat, (i : Int) < placedCount es s.allFiles P →
      ∃ q, q ≠ "." ∧ dirname q = P ∧ alGet? s.allFiles q = some (Handle.addr (aP ++ [i]))

/-- The full build invariant: the structural part plus the value of the
countdown allocator. -/
structure Inv (es done : List Header) (K : List (List (List Char))) (s : BSt)
    extends InvCore es done K s : Prop where
  dirSizesVal : ∀ P, alGetI s.dirSizes P = count0 es P - placedCount es s.allFiles P

theorem append_single_inj {α : Type} (a b : List α) (i j : α)
    (h : a ++ [i] = b ++ [j]) : a = b ∧ i = j := by
  have hr := congrArg List.reverse h
  simp only [List.reverse_append, List.reverse_cons, List.reverse_nil,
    List.nil_append, List.cons_append] at hr
  injection hr with h1 h2
  refine ⟨?_, h1⟩
  have := congrArg List.reverse h2
  simpa using this

theorem addrLe_length (b a : List Nat) (h : addrLe b a) : b.length ≤ a.length := by
  obtain ⟨t, ht⟩ := h
  rw [← ht]
  simp

theorem addrLe_eq_of_length (b a : List Nat) (h : addrLe b a)
    (hl : b.length = a.length) : b = a := by
  obtain ⟨t, ht⟩ := h
  have hlen := congrArg List.length ht
  simp only [List.length_append] at hlen
  have ht0 : t = [] := List.eq_nil_of_length_eq_zero (by omega)
  subst ht0
  simpa using ht

theorem addrLe_of_lt_append_single (b a' : List Nat) (i' : Nat)
    (h : addrLe b (a' ++ [i'])) (hl : b.length < (a' ++ [i']).length) :
    addrLe b a' := by
  obtain ⟨t, ht⟩ := h
  cases ht0 : t.reverse with
  | nil =>
    exfalso
    have htn : t = [] := by simpa using congrArg List.reverse ht0
    subst htn
    rw [List.append_nil] at ht
    subst ht
    simp at hl
  | cons x tr =>
    have htt : t = tr.reverse ++ [x] := by
      have := congrArg List.reverse ht0
      simpa using this
    subst htt
    rw [← List.append_assoc] at ht
    obtain ⟨h1, _⟩ := append_single_inj _ _ _ _ ht
    exact ⟨tr.reverse, h1⟩

/-- Below an unfilled slot of a registered directory there are no
registered paths (their slot indices are all below the filled count). -/
theorem inv_no_key_below (es done : List Header) (K : List (List (List Char))) (s : BSt)
    (hInv : InvCore es done K s) (P : String) (aP : List Nat) (i : Nat)
    (hP : alGet? s.allFiles P = some (Handle.addr aP))
    (hge : placedCount es s.allFiles P ≤ (i : Int)) :
    ∀ (n : Nat) (q0 : String) (a0 : List Nat), a0.length ≤ n →
      alGet? s.allFiles q0 = some (Handle.addr a0) → ¬ addrLe (aP ++ [i]) a0 := by
  intro n
  induction n with
  | zero =>
    intro q0 a0 hlen hq0 hle
    have h1 := addrLe_length _ _ hle
    simp only [List.length_append, List.length_cons, List.length_nil] at h1
    omega
  | succ n ih =>
    intro q0 a0 hlen hq0 hle
    by_cases hq0d : q0 = "."
    · subst hq0d
      obtain ⟨a, ha, hdot, _⟩ := hInv.nodes "." _ hq0
      injection ha with ha
      rw [ha, hdot rfl] at hle
      have h1 := addrLe_length _ _ hle
      simp at h1
    · obtain ⟨aP', i', hpar, hh, hilt⟩ := hInv.parentLink q0 _ hq0 hq0d
      injection hh with hh
      subst hh
      have hlen2 := addrLe_length _ _ hle
      by_cases heq : (aP ++ [i]).length = (aP' ++ [i']).length
      · have heq2 := addrLe_eq_of_length _ _ hle heq
        obtain ⟨h1, h2⟩ := append_single_inj _ _ _ _ heq2
        subst h1
        subst h2
        have hPd := hInv.addrInj P (dirname q0) _ _ hP hpar rfl
        rw [← hPd] at hilt
        omega
      · have hlt2 : (aP ++ [i]).length < (aP' ++ [i']).length := lt_of_le_of_ne hlen2 heq
        have hle' : addrLe (aP ++ [i]) aP' := addrLe_of_lt_append_single _ _ _ hle hlt2
        refine ih (dirname q0) aP' ?_ hpar hle'
        have := congrArg List.length (rfl : aP' ++ [i'] = aP' ++ [i'])
        simp only [List.length_append, List.length_cons, List.length_nil] at hlen
        omega

theorem placedCount_insert (es : List Header) (af : List (String × Handle))
    (q : String) (h : Handle) (P : String) (hnone : alGet? af q = none) :
    placedCount es (alSet af q h) P = placedCount es af P +
      ((es.filter (fun e => supportedTypeFlag e &&
        decide (dirname (clean e.name) = P) &&
        decide (clean e.name = q))).length : Int) := by
  unfold placedCount
  induction es with
  | nil => simp
  | cons e t ih =>
    rw [List.filter_cons, List.filter_cons, List.filter_cons]
    by_cases hq : clean e.name = q
    · have hnew : alGet? (alSet af q h) (clean e.name) = some h := by
        rw [hq]; exact alGet?_alSet_self af q h
      have hold : alGet? af (clean e.name) = none := by rw [hq]; exact hnone
      by_cases hA : (supportedTypeFlag e && decide (dirname (clean e.name) = P)) = true
      · rw [if_pos (by rw [Bool.and_eq_true]; exact ⟨hA, by rw [hnew]; rfl⟩)]
        rw [if_neg (by rw [Bool.and_eq_true, not_and]; intro _; rw [hold]; simp)]
        rw [if_pos (by rw [Bool.and_eq_true]; exact ⟨hA, by simp [hq]⟩)]
        simp only [List.length_cons]
        push_cast
        omega
      · rw [if_neg (by rw [Bool.and_eq_true, not_and]; intro hc; exact absurd hc hA),
          if_neg (by rw [Bool.and_eq_true, not_and]; intro hc; exact absurd hc hA),
          if_neg (by rw [Bool.and_eq_true, not_and]; intro hc; exact absurd hc hA)]
        exact ih
    · have hsame : alGet? (alSet af q h) (clean e.name) = alGet? af (clean e.name) :=
        alGet?_alSet_other af q (clean e.name) h (fun he => hq he.symm)
      have hqd : decide (clean e.name = q) = false := by simp [hq]
      rw [hsame, hqd, Bool.and_false]
      by_cases hB : (supportedTypeFlag e && decide (dirname (clean e.name) = P) &&
          (alGet? af (clean e.name)).isSome) = true
      · rw [if_pos hB, if_pos hB, if_neg (by simp)]
        simp only [List.length_cons]
        push_cast
        omega
      · rw [if_neg hB, if_neg hB, if_neg (by simp)]
        exact ih

theorem filter_path_single (es : List Header) (q : String)
    (hnd : (es.map (fun e => clean e.name)).Nodup)
    (e0 : Header) (he0 : e0 ∈ es) (hq0 : clean e0.name = q) :
    es.filter (fun e => decide (clean e.name = q)) = [e0] := by
  induction es with
  | nil => simp at he0
  | cons a t ih =>
    rw [List.map_cons, List.nodup_cons] at hnd
    rw [List.filter_cons]
    rcases List.mem_cons.mp he0 with h0 | h0
    · subst h0
      rw [if_pos (by simp [hq0])]
      have htnil : t.filter (fun e => decide (clean e.name = q)) = [] := by
        rw [List.filter_eq_nil_iff]
        intro x hx
        simp only [decide_eq_true_eq]
        intro hxq
        exact hnd.1 (by
          rw [← hq0] at hxq
          exact List.mem_map.mpr ⟨x, hx, hxq.symm ▸ rfl⟩)
      rw [htnil]
    · have hane : clean a.name ≠ q := by
        intro hc
        exact hnd.1 (by
          rw [hc, ← hq0]
          exact List.mem_map.mpr ⟨e0, h0, rfl⟩)
      rw [if_neg (by simp [hane])]
      exact ih hnd.2 h0

theorem placed_term_value (es : List Header) (q P : String)
    (hnd : (es.map (fun e => clean e.name)).Nodup)
    (hsupp : ∀ e ∈ es, supportedTypeFlag e = true)
    (e0 : Header) (he0 : e0 ∈ es) (hq0 : clean e0.name = q) :
    ((es.filter (fun e => supportedTypeFlag e &&
      decide (dirname (clean e.name) = P) &&
      decide (clean e.name = q))).length : Int) = if dirname q = P then 1 else 0 := by
  have hcong : es.filter (fun e => supportedTypeFlag e &&
      decide (dirname (clean e.name) = P) && decide (clean e.name = q)) =
      (es.filter (fun e => decide (clean e.name = q))).filter
        (fun e => supportedTypeFlag e && decide (dirname (clean e.name) = P)) := by
    rw [List.filter_filter]
  rw [hcong, filter_path_single es q hnd e0 he0 hq0]
  rw [List.filter_cons, List.filter_nil]
  have hs0 : supportedTypeFlag e0 = true := hsupp e0 he0
  by_cases hp : dirname q = P
  · rw [if_pos (by rw [hs0, hq0, hp]; simp), if_pos hp]
    rfl
  · rw [if_neg (by rw [hs0, hq0]; simp [hp]), if_neg hp]
    rfl

theorem placed_lt_count0 (es : List Header) (af : List (String × Handle)) (q : String)
    (hsupp : ∀ e ∈ es, supportedTypeFlag e = true)
    (e0 : Header) (he0 : e0 ∈ es) (hq0 : clean e0.name = q)
    (hnone : alGet? af q = none) :
    placedCount es af (dirname q) < count0 es (dirname q) := by
  unfold placedCount count0
  have := filter_length_lt es
    (fun e => supportedTypeFlag e && decide (dirname (clean e.name) = dirname q))
    (fun e => supportedTypeFlag e && decide (dirname (clean e.name) = dirname q) &&
      (alGet? af (clean e.name)).isSome)
    (by
      intro x _ hx
      rw [Bool.and_eq_true] at hx
      exact hx.1)
    e0 he0
    (by simp [hsupp e0 he0, hq0])
    (by simp [hq0, hnone, hsupp e0 he0])
  exact_mod_cast this

theorem placed_nonneg (es : List Header) (af : List (String × Handle)) (P : String) :
    0 ≤ placedCount es af P := by
  unfold placedCount
  positivity

theorem placed_le_count0 (es : List Header) (af : List (String × Handle)) (P : String) :
    placedCount es af P ≤ count0 es P := by
  unfold placedCount count0
  have := filter_length_mono es
    (fun e => supportedTypeFlag e && decide (dirname (clean e.name) = P))
    (fun e => supportedTypeFlag e && decide (dirname (clean e.name) = P) &&
      (alGet? af (clean e.name)).isSome)
    (by
      intro x _ hx
      rw [Bool.and_eq_true] at hx
      exact hx.1)
  exact_mod_cast this

/-! ## Small helpers for the build induction -/

theorem alGet?_alSet {α : Type} (m : List (String × α)) (k : String) (v : α) (q : String) :
    alGet? (alSet m k v) q = if k = q then some v else alGet? m q := by
  by_cases h : k = q
  · subst h
    rw [if_pos rfl]
    exact alGet?_alSet_self m k v
  · rw [if_neg h]
    exact alGet?_alSet_other m k q v h

theorem alGet?_alSet_isSome {α : Type} (m : List (String × α)) (k : String) (v : α)
    (q : String) :
    (alGet? (alSet m k v) q).isSome = true ↔ q = k ∨ (alGet? m q).isSome = true := by
  rw [alGet?_alSet]
  by_cases h : k = q
  · subst h
    simp
  · rw [if_neg h]
    constructor
    · exact fun hh => Or.inr hh
    · rintro (hh | hh)
      · exact absurd hh.symm h
      · exact hh

theorem dirname_dot : dirname "." = "." := rfl

theorem joinC_length : ∀ (comps : List (List Char)), (∀ x ∈ comps, x ≠ []) →
    comps.length ≤ (joinC comps).length := by
  intro comps
  induction comps with
  | nil => intro _; simp
  | cons c rest ih =>
    intro hall
    cases rest with
    | nil =>
      have hc : c ≠ [] := hall c (by simp)
      have h1 : 1 ≤ c.length := by
        cases c with
        | nil => exact absurd rfl hc
        | cons a t => simp
      simpa [joinC] using h1
    | cons r rs =>
      rw [joinC_cons c (r :: rs) (by simp)]
      have ihr := ih (fun x hx => hall x (List.mem_cons_of_mem c hx))
      simp only [List.length_cons, List.length_append] at ihr ⊢
      omega

theorem pathStr_length (comps : List (List Char)) :
    (pathStr comps).length = (joinC comps).length := rfl

theorem simple_ne_nil (c : List Char) (hc : simpleComp c = true) : c ≠ [] := by
  obtain ⟨ch, ct, hcct, _, _, _, _⟩ := simpleComp_elim c hc
  rw [hcct]
  simp

theorem dirname_ne_self (comps : List (List Char)) (hne : comps ≠ [])
    (hall : ∀ x ∈ comps, simpleComp x = true) :
    dirname (pathStr comps) ≠ pathStr comps := by
  cases comps with
  | nil => exact absurd rfl hne
  | cons c rest =>
    cases rest with
    | nil =>
      rw [dirname_single c (hall c (by simp))]
      exact fun he => pathStr_ne_dot [c] (by simp) hall he.symm
    | cons r rs =>
      have hgl : (c :: r :: rs).dropLast ++ [(c :: r :: rs).getLast (by simp)] =
          c :: r :: rs := List.dropLast_append_getLast (by simp)
      have hdne : (c :: r :: rs).dropLast ≠ [] := by simp
      have hall2 : ∀ x ∈ (c :: r :: rs).dropLast ++
          [(c :: r :: rs).getLast (by simp)], simpleComp x = true := by
        rw [hgl]
        exact hall
      have hd := dirname_append _ _ hdne hall2
      rw [hgl] at hd
      rw [hd]
      intro he
      have heq := pathStr_inj _ _ hdne
        (fun x hx => hall x (by rw [← hgl]; exact List.mem_append_left _ hx))
        (by simp) hall he
      have hlen := congrArg List.length heq
      rw [List.length_dropLast] at hlen
      simp at hlen

theorem esPath_ne_dot (es : List Header) (hG : GoodEs es) (e : Header) (he : e ∈ es) :
    clean e.name ≠ "." := by
  rw [pathOf_eq]
  exact pathStr_ne_dot (compsOf e) (compsOf_ne_nil e) (hG.simple e he)

theorem esPathInj (es : List Header) (hG : GoodEs es) (e1 e2 : Header) (h1 : e1 ∈ es)
    (h2 : e2 ∈ es) (he : clean e1.name = clean e2.name) : e1 = e2 :=
  List.inj_on_of_nodup_map hG.nodup h1 h2 he

theorem strictPrefixes_take (l : List (List Char)) (k : Nat) (h0 : 0 < k)
    (hk : k < l.length) : l.take k ∈ strictPrefixes l := by
  unfold strictPrefixes
  refine List.mem_map.mpr ⟨k - 1, List.mem_range.mpr (by omega), ?_⟩
  have hk1 : k - 1 + 1 = k := by omega
  rw [hk1]

theorem find?_append_none {α : Type} (l1 l2 : List α) (p : α → Bool)
    (h2 : l2.find? p = none) : (l1 ++ l2).find? p = l1.find? p := by
  induction l1 with
  | nil => simpa using h2
  | cons a t ih =>
    rw [List.cons_append]
    by_cases hp : p a = true
    · rw [List.find?_cons_of_pos _ hp, List.find?_cons_of_pos _ hp]
    · rw [List.find?_cons_of_neg _ hp, List.find?_cons_of_neg _ hp, ih]

theorem find?_append_left_none {α : Type} (l1 l2 : List α) (p : α → Bool)
    (h1 : l1.find? p = none) : (l1 ++ l2).find? p = l2.find? p := by
  induction l1 with
  | nil => simp
  | cons a t ih =>
    rw [List.find?_cons] at h1
    cases hp : p a with
    | true => rw [hp] at h1; simp at h1
    | false =>
      rw [hp] at h1
      rw [List.cons_append, List.find?_cons_of_neg _ (by simp [hp]), ih h1]

theorem shapeSpec_append (es done : List Header) (q : String) (e : Header)
    (hno : (supportedTypeFlag e && decide (clean e.name = q) &&
      decide (e.typeflag ≠ tarTypeDir)) = false) :
    shapeSpec es (done ++ [e]) q = shapeSpec es done q := by
  unfold shapeSpec
  have h1 : List.find? (fun e => supportedTypeFlag e && decide (clean e.name = q) &&
      decide (e.typeflag ≠ tarTypeDir)) [e] = none := by
    simp only [List.find?_cons, List.find?_nil, hno]
  rw [find?_append_none done [e] _ h1]

theorem find?_leaf_none (done : List Header) (q : String) (af : List (String × Handle))
    (hdr : ∀ e' ∈ done, supportedTypeFlag e' = true →
      (alGet? af (clean e'.name)).isSome = true)
    (hq : alGet? af q = none) :
    done.find? (fun e => supportedTypeFlag e && decide (clean e.name = q) &&
      decide (e.typeflag ≠ tarTypeDir)) = none := by
  rw [List.find?_eq_none]
  intro x hx hc
  rw [Bool.and_eq_true, Bool.and_eq_true] at hc
  obtain ⟨⟨hs, hqx⟩, _⟩ := hc
  rw [decide_eq_true_eq] at hqx
  have hreg := hdr x hx hs
  rw [hqx, hq] at hreg
  simp at hreg

theorem shapeSpec_unreg (es done : List Header) (q : String) (af : List (String × Handle))
    (hdr : ∀ e' ∈ done, supportedTypeFlag e' = true →
      (alGet? af (clean e'.name)).isSome = true)
    (hq : alGet? af q = none) :
    shapeSpec es done q = FCShape.directory (count0 es q).toNat := by
  unfold shapeSpec
  rw [find?_leaf_none done q af hdr hq]

theorem placed_insert (es : List Header) (af : List (String × Handle)) (q : String)
    (h : Handle) (P : String) (hnone : alGet? af q = none)
    (hnd : (es.map (fun e => clean e.name)).Nodup)
    (hsupp : ∀ e ∈ es, supportedTypeFlag e = true)
    (e0 : Header) (he0 : e0 ∈ es) (hq0 : clean e0.name = q) :
    placedCount es (alSet af q h) P =
      placedCount es af P + (if dirname q = P then 1 else 0) := by
  rw [placedCount_insert es af q h P hnone, placed_term_value es q P hnd hsupp e0 he0 hq0]

theorem placed_zero_unreg (es done : List Header) (K : List (List (List Char))) (s : BSt)
    (hcore : InvCore es done K s) (q : String)
    (hq : alGet? s.allFiles q = none) :
    placedCount es s.allFiles q = 0 := by
  unfold placedCount
  have hz : es.filter (fun e => supportedTypeFlag e &&
      decide (dirname (clean e.name) = q) &&
      (alGet? s.allFiles (clean e.name)).isSome) = [] := by
    rw [List.filter_eq_nil_iff]
    intro e _ hc
    rw [Bool.and_eq_true, Bool.and_eq_true] at hc
    obtain ⟨⟨_, hdq⟩, hsome⟩ := hc
    rw [decide_eq_true_eq] at hdq
    cases hh : alGet? s.allFiles (clean e.name) with
    | none => rw [hh] at hsome; simp at hsome
    | some hd =>
      by_cases hdot : clean e.name = "."
      · rw [hdot, dirname_dot] at hdq
        rw [← hdq, hcore.rootKey] at hq
        simp at hq
      · obtain ⟨aP, i, hpar, _, _⟩ := hcore.parentLink (clean e.name) hd hh hdot
        rw [hdq, hq] at hpar
        simp at hpar
  rw [hz]
  rfl

theorem slotsFull_eq_all : ∀ (ch : List (String × FC)),
    slotsFull ch = ch.all (fun x => fcFull x.2) := by
  intro ch
  induction ch with
  | nil => rfl
  | cons a t ih => rw [List.all_cons, ← ih]; rfl

/-- Registering a freshly allocated slot under its path and writing its
union field restores the full invariant.  `s\'` is the state right after
`nextChild` returned slot `aP ++ [i]` for the path `pathStr comps` (so
the countdown at the parent already runs one ahead, `hF4`), `done2` is
the processed prefix the new state is measured against, and `fc` is the
union value the caller writes through the slot. -/
theorem register_write (es done done2 : List Header) (K : List (List (List Char)))
    (s' : BSt) (comps : List (List Char)) (e0 : Header) (aP : List Nat) (i : Nat) (fc : FC)
    (hG : GoodEs es) (hcore : InvCore es done K s')
    (he0 : e0 ∈ es) (hc0 : compsOf e0 = comps)
    (hF2 : alGet? s'.allFiles (dirname (pathStr comps)) = some (Handle.addr aP))
    (hF3 : alGet? s'.allFiles (pathStr comps) = none)
    (hF4 : ∀ P, alGetI s'.dirSizes P = count0 es P - placedCount es s'.allFiles P -
      (if P = dirname (pathStr comps) then 1 else 0))
    (hF5 : (i : Int) = placedCount es s'.allFiles (dirname (pathStr comps)))
    (hF7 : ∃ fc0, getNode s'.root (aP ++ [i]) = some (basename (pathStr comps), fc0))
    (hF8 : ∀ q0 a0, alGet? s'.allFiles q0 = some (Handle.addr a0) → ¬ addrLe (aP ++ [i]) a0)
    (hK10 : ∀ k, 0 < k → k < comps.length → comps.take k ∈ K)
    (hd1 : ∀ q', q' ≠ pathStr comps → shapeSpec es done2 q' = shapeSpec es done q')
    (hshape : shapeOf fc = shapeSpec es done2 (pathStr comps))
    (hd2 : ∀ e' ∈ done2, e' ∈ done ∨ clean e'.name = pathStr comps)
    (hd3 : ∀ e' ∈ done, e' ∈ done2)
    (hd4 : ∀ e' ∈ done2, supportedTypeFlag e' = true → e' ∈ es)
    (he0d : e0 ∈ done2 ∨ e0.typeflag = tarTypeDir) :
    Inv es done2 (K ++ [comps]) { s' with
      allFiles := alSet s'.allFiles (pathStr comps) (Handle.addr (aP ++ [i])),
      root := modNode (fun f => (f.1, fc)) s'.root (aP ++ [i]) } := by
  have hsimple : ∀ x ∈ comps, simpleComp x = true := by
    rw [← hc0]
    exact hG.simple e0 he0
  have hcne : comps ≠ [] := hc0 ▸ compsOf_ne_nil e0
  have hqd : pathStr comps ≠ "." := pathStr_ne_dot comps hcne hsimple
  have hPq : dirname (pathStr comps) ≠ pathStr comps := dirname_ne_self comps hcne hsimple
  have he0q : clean e0.name = pathStr comps := by rw [pathOf_eq, hc0]
  have hplaced : ∀ P', placedCount es
      (alSet s'.allFiles (pathStr comps) (Handle.addr (aP ++ [i]))) P' =
      placedCount es s'.allFiles P' +
        (if dirname (pathStr comps) = P' then 1 else 0) :=
    fun P' => placed_insert es s'.allFiles (pathStr comps) (Handle.addr (aP ++ [i])) P'
      hF3 hG.nodup hG.supp e0 he0 he0q
  have hzero : placedCount es s'.allFiles (pathStr comps) = 0 :=
    placed_zero_unreg es done K s' hcore (pathStr comps) hF3
  refine ⟨⟨?_, ?_, ?_, ?_, ?_, ?_, ?_, ?_, ?_, ?_, ?_, ?_⟩, ?_⟩
  · -- kSimple
    intro c hc
    rcases List.mem_append.mp hc with h | h
    · exact hcore.kSimple c h
    · rw [List.mem_singleton.mp h]
      exact ⟨hcne, hsimple⟩
  · -- kClosed
    intro c hc k hk0 hkl
    rcases List.mem_append.mp hc with h | h
    · exact List.mem_append_left _ (hcore.kClosed c h k hk0 hkl)
    · rw [List.mem_singleton.mp h] at hkl ⊢
      exact List.mem_append_left _ (hK10 k hk0 hkl)
  · -- kEntry
    intro c hc
    rcases List.mem_append.mp hc with h | h
    · exact hcore.kEntry c h
    · rw [List.mem_singleton.mp h]
      exact ⟨e0, he0, hG.supp e0 he0, he0q⟩
  · -- rootKey
    dsimp only
    rw [alGet?_alSet_other s'.allFiles (pathStr comps) "." _ hqd]
    exact hcore.rootKey
  · -- keysIff
    intro q0
    dsimp only
    rw [alGet?_alSet_isSome]
    constructor
    · rintro (h | h)
      · exact Or.inr ⟨comps, List.mem_append_right _ (by simp), h⟩
      · rcases (hcore.keysIff q0).mp h with h' | ⟨c, hc, hc'⟩
        · exact Or.inl h'
        · exact Or.inr ⟨c, List.mem_append_left _ hc, hc'⟩
    · rintro (h | ⟨c, hc, hc'⟩)
      · exact Or.inr ((hcore.keysIff q0).mpr (Or.inl h))
      · rcases List.mem_append.mp hc with h | h
        · exact Or.inr ((hcore.keysIff q0).mpr (Or.inr ⟨c, h, hc'⟩))
        · rw [List.mem_singleton.mp h] at hc'
          exact Or.inl hc'
  · -- doneEs
    exact hd4
  · -- doneReg
    intro e' he' hs
    dsimp only
    rw [alGet?_alSet_isSome]
    rcases hd2 e' he' with h | h
    · exact Or.inr (hcore.doneReg e' h hs)
    · exact Or.inl h
  · -- kDirOrDone
    intro c hc e' he' hpe hnd2
    rcases List.mem_append.mp hc with h | h
    · refine hcore.kDirOrDone c h e' he' hpe ?_
      intro hdone
      exact hnd2 (hd3 e' hdone)
    · rw [List.mem_singleton.mp h] at hpe
      have he'e0 : e' = e0 := esPathInj es hG e' e0 he' he0 (by rw [hpe, he0q])
      subst he'e0
      rcases he0d with h' | h'
      · exact absurd h' hnd2
      · exact h'
  · -- nodes
    intro q0 h0 hq0
    dsimp only at hq0 ⊢
    rw [alGet?_alSet] at hq0
    by_cases hqq : pathStr comps = q0
    · rw [if_pos hqq] at hq0
      injection hq0 with hq0
      subst hqq
      refine ⟨aP ++ [i], hq0.symm, fun hdot => absurd hdot hqd, ?_⟩
      obtain ⟨fc0, hg7⟩ := hF7
      have hgm := getNode_modNode (fun f => (f.1, fc)) (aP ++ [i]) s'.root _ hg7
      have hni : nodeInfo (modNode (fun f => (f.1, fc)) s'.root (aP ++ [i])) (aP ++ [i]) =
          some (basename (pathStr comps), shapeOf fc) := by
        rw [nodeInfo, hgm]
        rfl
      rw [hni, hshape]
      unfold nodeName
      rw [if_neg hqd]
    · rw [if_neg hqq] at hq0
      obtain ⟨a, ha, hdot, hni⟩ := hcore.nodes q0 h0 hq0
      refine ⟨a, ha, hdot, ?_⟩
      have hnotle : ¬ addrLe (aP ++ [i]) a := hF8 q0 a (by rw [← ha]; exact hq0)
      rw [nodeInfo_modNode_of_not_le (fun f => (f.1, fc)) (aP ++ [i]) s'.root a hnotle,
        hd1 q0 (fun he => hqq he.symm)]
      exact hni
  · -- addrInj
    intro q1 q2 h1 h2 hg1 hg2 hhe
    dsimp only at hg1 hg2
    rw [alGet?_alSet] at hg1 hg2
    by_cases e1 : pathStr comps = q1 <;> by_cases e2 : pathStr comps = q2
    · rw [← e1, ← e2]
    · rw [if_pos e1] at hg1
      rw [if_neg e2] at hg2
      injection hg1 with hg1
      obtain ⟨a2, ha2, _, _⟩ := hcore.nodes q2 h2 hg2
      exfalso
      refine hF8 q2 a2 (by rw [← ha2]; exact hg2) ?_
      have hEq := (hg1.trans hhe).trans ha2
      injection hEq with hEq
      rw [hEq]
      exact addrLe_refl _
    · rw [if_neg e1] at hg1
      rw [if_pos e2] at hg2
      injection hg2 with hg2
      obtain ⟨a1, ha1, _, _⟩ := hcore.nodes q1 h1 hg1
      exfalso
      refine hF8 q1 a1 (by rw [← ha1]; exact hg1) ?_
      have hEq := hg2.trans (hhe.symm.trans ha1)
      injection hEq with hEq
      rw [hEq]
      exact addrLe_refl _
    · rw [if_neg e1] at hg1
      rw [if_neg e2] at hg2
      exact hcore.addrInj q1 q2 h1 h2 hg1 hg2 hhe
  · -- parentLink
    intro q0 h0 hq0 hq0d
    dsimp only at hq0 ⊢
    rw [alGet?_alSet] at hq0
    by_cases hqq : pathStr comps = q0
    · rw [if_pos hqq] at hq0
      injection hq0 with hq0
      subst hqq
      refine ⟨aP, i, ?_, hq0.symm, ?_⟩
      · rw [alGet?_alSet, if_neg (fun he => hPq he.symm)]
        exact hF2
      · rw [hplaced, if_pos rfl]
        omega
    · rw [if_neg hqq] at hq0
      obtain ⟨aP0, i0, hpar0, hh0, hlt0⟩ := hcore.parentLink q0 h0 hq0 hq0d
      have hdq : pathStr comps ≠ dirname q0 := by
        intro he
        rw [← he, hF3] at hpar0
        exact Option.noConfusion hpar0
      refine ⟨aP0, i0, ?_, hh0, ?_⟩
      · rw [alGet?_alSet, if_neg hdq]
        exact hpar0
      · rw [hplaced]
        by_cases hc : dirname (pathStr comps) = dirname q0
        · rw [if_pos hc]
          omega
        · rw [if_neg hc]
          omega
  · -- slotsFilled
    intro P0 aP0 hP0 i0 hi0
    dsimp only at hP0 hi0 ⊢
    rw [alGet?_alSet] at hP0
    by_cases hP0q : pathStr comps = P0
    · subst hP0q
      rw [hplaced, if_neg hPq, hzero] at hi0
      exfalso
      omega
    · rw [if_neg hP0q] at hP0
      rw [hplaced] at hi0
      by_cases hPP : dirname (pathStr comps) = P0
      · rw [if_pos hPP] at hi0
        by_cases hlt : (i0 : Int) < placedCount es s'.allFiles P0
        · obtain ⟨q2, hq2d, hq2P, hq2g⟩ := hcore.slotsFilled P0 aP0 hP0 i0 hlt
          have hne : pathStr comps ≠ q2 := by
            intro he
            rw [← he, hF3] at hq2g
            exact Option.noConfusion hq2g
          refine ⟨q2, hq2d, hq2P, ?_⟩
          rw [alGet?_alSet, if_neg hne]
          exact hq2g
        · have hii : i0 = i := by
            rw [← hPP] at hlt hi0
            omega
          subst hii
          have haa : aP0 = aP := by
            rw [← hPP] at hP0
            rw [hP0] at hF2
            injection hF2 with hF2
            injection hF2
          subst haa
          refine ⟨pathStr comps, hqd, hPP, ?_⟩
          rw [alGet?_alSet, if_pos rfl]
      · rw [if_neg hPP] at hi0
        have hlt : (i0 : Int) < placedCount es s'.allFiles P0 := by omega
        obtain ⟨q2, hq2d, hq2P, hq2g⟩ := hcore.slotsFilled P0 aP0 hP0 i0 hlt
        have hne : pathStr comps ≠ q2 := by
          intro he
          rw [← he, hF3] at hq2g
          exact Option.noConfusion hq2g
        refine ⟨q2, hq2d, hq2P, ?_⟩
        rw [alGet?_alSet, if_neg hne]
        exact hq2g
  · -- dirSizesVal
    intro P'
    dsimp only
    rw [hF4 P', hplaced P']
    by_cases hc : P' = dirname (pathStr comps)
    · rw [if_pos hc, if_pos hc.symm]
      omega
    · rw [if_neg hc, if_neg (fun he => hc he.symm)]
      omega

/-- Allocating the next slot of a registered directory parent: from a
state satisfying the full invariant, `nextChildCont` hands out slot
index `placedCount` of the parent, sets its name, decrements the
countdown, and leaves a state satisfying the structural invariant with
the countdown one ahead at the parent. -/
theorem alloc_spec (es done : List Header) (K : List (List (List Char))) (s : BSt)
    (comps : List (List Char)) (e0 : Header)
    (hG : GoodEs es) (hInv : Inv es done K s)
    (he0 : e0 ∈ es) (hc0 : compsOf e0 = comps)
    (hF3s : alGet? s.allFiles (pathStr comps) = none)
    (aP : List Nat)
    (hPreg : alGet? s.allFiles (dirname (pathStr comps)) = some (Handle.addr aP))
    (hPdir : shapeSpec es done (dirname (pathStr comps)) =
      FCShape.directory (count0 es (dirname (pathStr comps))).toNat) :
    ∃ (s' : BSt) (i : Nat),
      nextChildCont s (Handle.addr aP) (pathStr comps) =
        (s', Handle.addr (aP ++ [i]), none) ∧
      s'.allFiles = s.allFiles ∧
      InvCore es done K s' ∧
      alGet? s'.allFiles (dirname (pathStr comps)) = some (Handle.addr aP) ∧
      alGet? s'.allFiles (pathStr comps) = none ∧
      (∀ P, alGetI s'.dirSizes P = count0 es P - placedCount es s'.allFiles P -
        (if P = dirname (pathStr comps) then 1 else 0)) ∧
      ((i : Int) = placedCount es s'.allFiles (dirname (pathStr comps))) ∧
      (∃ fc0, getNode s'.root (aP ++ [i]) = some (basename (pathStr comps), fc0)) ∧
      (∀ q0 a0, alGet? s'.allFiles q0 = some (Handle.addr a0) →
        ¬ addrLe (aP ++ [i]) a0) := by
  have he0q : clean e0.name = pathStr comps := by rw [pathOf_eq, hc0]
  obtain ⟨aa, haa, _, hni⟩ := hInv.nodes (dirname (pathStr comps)) _ hPreg
  injection haa with haa
  subst haa
  rw [hPdir] at hni
  obtain ⟨nm, ch, hgP, hchlen⟩ : ∃ nm ch, getNode s.root aP = some (nm, FC.directory ch) ∧
      ch.length = (count0 es (dirname (pathStr comps))).toNat := by
    unfold nodeInfo at hni
    cases hg : getNode s.root aP with
    | none => rw [hg] at hni; simp at hni
    | some f =>
      rw [hg] at hni
      obtain ⟨fn, fc⟩ := f
      simp only [Option.map_some', Option.some.injEq, Prod.mk.injEq] at hni
      cases fc with
      | directory ch =>
        refine ⟨fn, ch, rfl, ?_⟩
        have h2 := hni.2
        simp only [shapeOf, FCShape.directory.injEq] at h2
        exact h2
      | unset => have h2 := hni.2; simp [shapeOf] at h2
      | regular d => have h2 := hni.2; simp [shapeOf] at h2
      | executable d => have h2 := hni.2; simp [shapeOf] at h2
      | symlink t => have h2 := hni.2; simp [shapeOf] at h2
  have hdirv : directoryOf s (Handle.addr aP) = .ok (DirView.dirAt aP ch.length) := by
    simp only [directoryOf, hgP]
  have hpl0 : 0 ≤ placedCount es s.allFiles (dirname (pathStr comps)) :=
    placed_nonneg es s.allFiles _
  have hpllt : placedCount es s.allFiles (dirname (pathStr comps)) <
      count0 es (dirname (pathStr comps)) :=
    placed_lt_count0 es s.allFiles (pathStr comps) hG.supp e0 he0 he0q hF3s
  obtain ⟨i, hi⟩ : ∃ i : Nat,
      (i : Int) = placedCount es s.allFiles (dirname (pathStr comps)) :=
    ⟨(placedCount es s.allFiles (dirname (pathStr comps))).toNat,
      Int.toNat_of_nonneg hpl0⟩
  have hlenI : (ch.length : Int) = count0 es (dirname (pathStr comps)) := by
    rw [hchlen]
    exact Int.toNat_of_nonneg (count0_nonneg es _)
  have hidx : (ch.length : Int) - alGetI s.dirSizes (dirname (pathStr comps)) =
      (i : Int) := by
    rw [hlenI, hInv.dirSizesVal, hi]
    ring
  have hview : dirViewAt (DirView.dirAt aP ch.length)
      ((dirViewLen (DirView.dirAt aP ch.length) : Int) -
        alGetI s.dirSizes (dirname (pathStr comps))) = Handle.addr (aP ++ [i]) := by
    simp only [dirViewAt, dirViewLen]
    rw [hidx, if_pos ⟨by omega, by rw [hi, hlenI]; omega⟩]
    simp
  have hilen : i < ch.length := by omega
  have happ := getNode_append s.root aP [i] (nm, FC.directory ch) hgP
  rw [getNode_child] at happ
  obtain ⟨slotv, hslotv⟩ : ∃ v, ch[i]? = some v := by
    cases hsl : ch[i]? with
    | none =>
      rw [List.getElem?_eq_none_iff] at hsl
      omega
    | some v => exact ⟨v, rfl⟩
  have hslot : getNode s.root (aP ++ [i]) = some slotv := by
    rw [happ, hslotv]
  have hsn : setName s (Handle.addr (aP ++ [i])) (basename (pathStr comps)) =
      ({ s with
          root := modNode (fun f => (basename (pathStr comps), f.2)) s.root (aP ++ [i]) },
        none) := by
    simp only [setName, hslot]
  have hnb := inv_no_key_below es done K s hInv.toInvCore (dirname (pathStr comps)) aP
    i hPreg (le_of_eq hi.symm)
  refine ⟨{ s with
      dirSizes := alSet s.dirSizes (dirname (pathStr comps))
        (alGetI s.dirSizes (dirname (pathStr comps)) - 1),
      root := modNode (fun f => (basename (pathStr comps), f.2)) s.root (aP ++ [i]) },
    i, ?_, rfl, ?_, hPreg, hF3s, ?_, ?_, ?_, ?_⟩
  · unfold nextChildCont
    rw [hdirv]
    simp only [hview, hsn]
  · -- InvCore for the post-allocation state
    refine ⟨hInv.kSimple, hInv.kClosed, hInv.kEntry, hInv.rootKey, hInv.keysIff,
      hInv.doneEs, hInv.doneReg, hInv.kDirOrDone, ?_, hInv.addrInj, hInv.parentLink,
      hInv.slotsFilled⟩
    intro q0 h0 hq0
    obtain ⟨a0, ha0, hdot0, hni0⟩ := hInv.nodes q0 h0 hq0
    refine ⟨a0, ha0, hdot0, ?_⟩
    dsimp only
    rw [nodeInfo_modNode_of_not_le _ _ _ _
      (hnb a0.length q0 a0 (le_refl _) (by rw [← ha0]; exact hq0))]
    exact hni0
  · -- skewed countdown
    intro P'
    dsimp only
    rw [alGetI_alSet]
    by_cases hc : dirname (pathStr comps) = P'
    · rw [if_pos hc, ← hc, hInv.dirSizesVal, if_pos rfl]
    · rw [if_neg hc, hInv.dirSizesVal, if_neg (fun he => hc he.symm)]
      ring
  · -- slot index value
    exact hi
  · -- allocated slot carries the basename
    refine ⟨slotv.2, ?_⟩
    dsimp only
    have hgm := getNode_modNode (fun f => (basename (pathStr comps), f.2))
      (aP ++ [i]) s.root slotv hslot
    simpa using hgm
  · -- freshness of the slot address
    intro q0 a0 hq0
    exact hnb a0.length q0 a0 (le_refl _) hq0

theorem simple_parts (c : List (List Char)) (hc : ∀ x ∈ c, simpleComp x = true) :
    ∀ x ∈ c, x ≠ [] ∧ '/' ∉ x := by
  intro x hx
  obtain ⟨ch, ct, hcct, hch, hct, _, _⟩ := simpleComp_elim x (hc x hx)
  subst hcct
  refine ⟨by simp, ?_⟩
  intro hm
  rcases List.mem_cons.mp hm with h | h
  · exact hch h.symm
  · exact hct h

theorem compsOf_of_path (e : Header) (comps : List (List Char)) (hne : comps ≠ [])
    (hall : ∀ x ∈ comps, simpleComp x = true) (hp : clean e.name = pathStr comps) :
    compsOf e = comps := by
  unfold compsOf
  rw [hp]
  exact splitC_joinC comps hne (simple_parts comps hall)

theorem shapeSpec_dirEntry (es done : List Header) (hG : GoodEs es)
    (hdE : ∀ e' ∈ done, supportedTypeFlag e' = true → e' ∈ es)
    (e2 : Header) (he2 : e2 ∈ es) (hdir : e2.typeflag = tarTypeDir) (q : String)
    (hq2 : clean e2.name = q) :
    shapeSpec es done q = FCShape.directory (count0 es q).toNat := by
  unfold shapeSpec
  have hnone : done.find? (fun e => supportedTypeFlag e && decide (clean e.name = q) &&
      decide (e.typeflag ≠ tarTypeDir)) = none := by
    rw [List.find?_eq_none]
    intro x hx hc
    rw [Bool.and_eq_true, Bool.and_eq_true] at hc
    obtain ⟨⟨hs, hqx⟩, hnd⟩ := hc
    rw [decide_eq_true_eq] at hqx hnd
    have hxe2 : x = e2 := esPathInj es hG x e2 (hdE x hx hs) he2 (by rw [hqx, hq2])
    subst hxe2
    exact hnd hdir
  rw [hnone]

theorem shapeSpec_dot (es done : List Header) (hG : GoodEs es)
    (hdE : ∀ e' ∈ done, supportedTypeFlag e' = true → e' ∈ es) :
    shapeSpec es done "." = FCShape.directory (count0 es ".").toNat := by
  unfold shapeSpec
  have hnone : done.find? (fun e => supportedTypeFlag e && decide (clean e.name = ".") &&
      decide (e.typeflag ≠ tarTypeDir)) = none := by
    rw [List.find?_eq_none]
    intro x hx hc
    rw [Bool.and_eq_true, Bool.and_eq_true] at hc
    obtain ⟨⟨hs, hqx⟩, _⟩ := hc
    rw [decide_eq_true_eq] at hqx
    exact esPath_ne_dot es hG x (hdE x hx hs) hqx
  rw [hnone]

theorem newDirectory_ok (s : BSt) (a : List Nat) (n : Int) (f : String × FC)
    (hg : getNode s.root a = some f) (hn : 0 ≤ n) :
    newDirectory s (Handle.addr a) n =
      ({ s with root := modNode (fun f => (f.1, FC.directory
        (List.replicate n.toNat ("", FC.unset)))) s.root a }, none) := by
  simp only [newDirectory, hg]
  rw [if_neg (by omega)]

theorem take_dropLast {α : Type} : ∀ (l : List α) (k : Nat), k ≤ l.length - 1 →
    l.dropLast.take k = l.take k := by
  intro l
  induction l with
  | nil => intro k _; rfl
  | cons a t ih =>
    intro k hk
    cases t with
    | nil =>
      have hk0 : k = 0 := by
        simp only [List.length_cons, List.length_nil] at hk
        omega
      subst hk0
      rfl
    | cons b u =>
      cases k with
      | zero => rfl
      | succ k2 =>
        have hdc : (a :: b :: u).dropLast = a :: (b :: u).dropLast := rfl
        rw [hdc, List.take_succ_cons, List.take_succ_cons,
          ih k2 (by simp only [List.length_cons] at hk ⊢; omega)]

theorem dropLast_eq_take_self {α : Type} (l : List α) :
    l.dropLast = l.take (l.length - 1) := by
  have h := take_dropLast l (l.length - 1) (le_refl _)
  rw [← h, show l.length - 1 = l.dropLast.length from (List.length_dropLast l).symm,
    List.take_length]

theorem take_simple_ne (dl : List (List Char)) (hdlne : dl ≠ [])
    (hs : ∀ x ∈ dl, simpleComp x = true) (k : Nat) (hk0 : 0 < k) :
    dl.take k ≠ [] ∧ ∀ x ∈ dl.take k, simpleComp x = true := by
  constructor
  · intro h
    have hlen := congrArg List.length h
    rw [List.length_take] at hlen
    simp only [List.length_nil] at hlen
    rw [Nat.min_eq_zero_iff] at hlen
    rcases hlen with h' | h'
    · omega
    · exact hdlne (List.eq_nil_of_length_eq_zero h')
  · intro x hx
    exact hs x (List.mem_of_mem_take hx)

/-- The full specification of a successful `nextChild` call on an
unregistered coherent path: all missing ancestors are materialized (as
directories preallocated with their pass-1 counts), and the returned
handle is the parent directory address extended by the next free slot
index, whose name field now carries the basename.  The countdown at the
parent runs one ahead of the (unchanged) registration count. -/
theorem nextChild_spec (es : List Header) (hG : GoodEs es) :
    ∀ (L : Nat) (comps : List (List Char)) (fuel : Nat) (done : List Header)
      (K : List (List (List Char))) (s : BSt) (e0 : Header),
      comps.length ≤ L →
      Inv es done K s →
      e0 ∈ es → compsOf e0 = comps →
      alGet? s.allFiles (pathStr comps) = none →
      2 * comps.length + 1 ≤ fuel →
      ∃ (s' : BSt) (aP : List Nat) (i : Nat) (K' : List (List (List Char))),
        nextChild fuel s (pathStr comps) = (s', Handle.addr (aP ++ [i]), none) ∧
        InvCore es done K' s' ∧
        alGet? s'.allFiles (dirname (pathStr comps)) = some (Handle.addr aP) ∧
        alGet? s'.allFiles (pathStr comps) = none ∧
        (∀ P, alGetI s'.dirSizes P = count0 es P - placedCount es s'.allFiles P -
          (if P = dirname (pathStr comps) then 1 else 0)) ∧
        ((i : Int) = placedCount es s'.allFiles (dirname (pathStr comps))) ∧
        (∃ fc0, getNode s'.root (aP ++ [i]) = some (basename (pathStr comps), fc0)) ∧
        (∀ q0 a0, alGet? s'.allFiles q0 = some (Handle.addr a0) →
          ¬ addrLe (aP ++ [i]) a0) ∧
        (∀ k, 0 < k → k < comps.length → comps.take k ∈ K') ∧
        (∀ q0, alGet? s.allFiles q0 = none → (alGet? s'.allFiles q0).isSome = true →
          ∃ k, 0 < k ∧ k < comps.length ∧ q0 = pathStr (comps.take k)) := by
  intro L
  induction L with
  | zero =>
    intro comps fuel done K s e0 hL _ _ hc0 _ _
    have hne : comps ≠ [] := hc0 ▸ compsOf_ne_nil e0
    exact absurd (List.eq_nil_of_length_eq_zero (by omega)) hne
  | succ L ih =>
    intro comps fuel done K s e0 hL hInv he0 hc0 hF3s hfuel
    have hne : comps ≠ [] := hc0 ▸ compsOf_ne_nil e0
    have hsimple : ∀ x ∈ comps, simpleComp x = true := by
      rw [← hc0]
      exact hG.simple e0 he0
    have hlen1 : 1 ≤ comps.length := List.length_pos.mpr hne
    obtain ⟨fu2, hfu⟩ : ∃ fu2, fuel = fu2 + 1 + 1 := ⟨fuel - 2, by omega⟩
    subst hfu
    have hbundle : ∃ (s3 : BSt) (aP3 : List Nat) (K3 : List (List (List Char))),
        getParent (fu2 + 1) s (pathStr comps) = (s3, Handle.addr aP3, none) ∧
        Inv es done K3 s3 ∧
        alGet? s3.allFiles (dirname (pathStr comps)) = some (Handle.addr aP3) ∧
        alGet? s3.allFiles (pathStr comps) = none ∧
        shapeSpec es done (dirname (pathStr comps)) =
          FCShape.directory (count0 es (dirname (pathStr comps))).toNat ∧
        (∀ k, 0 < k → k < comps.length → comps.take k ∈ K3) ∧
        (∀ q0, alGet? s.allFiles q0 = none → (alGet? s3.allFiles q0).isSome = true →
          ∃ k, 0 < k ∧ k < comps.length ∧ q0 = pathStr (comps.take k)) := by
      by_cases h2 : 2 ≤ comps.length
      · -- at least two components: the parent is the dropLast prefix
        have hdll : comps.dropLast.length = comps.length - 1 := List.length_dropLast comps
        have hdlne : comps.dropLast ≠ [] := by
          intro hnil
          rw [hnil] at hdll
          simp only [List.length_nil] at hdll
          omega
        have hgl := List.dropLast_append_getLast hne
        have hallA : ∀ x ∈ comps.dropLast ++ [comps.getLast hne], simpleComp x = true := by
          rw [hgl]
          exact hsimple
        have hdirq : dirname (pathStr comps) = pathStr comps.dropLast := by
          conv_lhs => rw [← hgl]
          exact dirname_append comps.dropLast (comps.getLast hne) hdlne hallA
        have hdlsimple : ∀ x ∈ comps.dropLast, simpleComp x = true := by
          intro x hx
          exact hsimple x (by rw [← hgl]; exact List.mem_append_left _ hx)
        have hdltake : comps.dropLast = comps.take (comps.length - 1) :=
          dropLast_eq_take_self comps
        have hdlpre : comps.dropLast ∈ strictPrefixes comps := by
          rw [hdltake]
          exact strictPrefixes_take comps (comps.length - 1) (by omega) (by omega)
        obtain ⟨e2, he2, hdir2, he2p⟩ := hG.anc e0 he0 comps.dropLast
          (by rw [hc0]; exact hdlpre)
        have hcdl : compsOf e2 = comps.dropLast :=
          compsOf_of_path e2 _ hdlne hdlsimple he2p
        have hPdir : shapeSpec es done (dirname (pathStr comps)) =
            FCShape.directory (count0 es (dirname (pathStr comps))).toNat := by
          rw [hdirq]
          exact shapeSpec_dirEntry es done hG hInv.doneEs e2 he2 hdir2 _ he2p
        have hnedl : pathStr comps.dropLast ≠ pathStr comps := by
          intro he
          have heq := pathStr_inj _ _ hdlne hdlsimple hne hsimple he
          have hlc := congrArg List.length heq
          rw [hdll] at hlc
          omega
        cases hPc : alGet? s.allFiles (pathStr comps.dropLast) with
        | some hP =>
          obtain ⟨aPx, haPx, _, _⟩ := hInv.nodes _ hP hPc
          subst haPx
          have hdlK : comps.dropLast ∈ K := by
            have hiss : (alGet? s.allFiles (pathStr comps.dropLast)).isSome = true := by
              rw [hPc]
              rfl
            rcases (hInv.keysIff _).mp hiss with hdot | ⟨c2, hc2, heq2⟩
            · exact absurd hdot (pathStr_ne_dot _ hdlne hdlsimple)
            · have heqc := pathStr_inj comps.dropLast c2 hdlne hdlsimple
                (hInv.kSimple c2 hc2).1 (hInv.kSimple c2 hc2).2 heq2
              rw [heqc]
              exact hc2
          refine ⟨s, aPx, K, ?_, hInv, ?_, hF3s, hPdir, ?_, ?_⟩
          · rw [getParent_succ, hdirq, hPc]
          · rw [hdirq]
            exact hPc
          · intro k hk0 hkl
            by_cases hkd : k < comps.length - 1
            · have htk : comps.take k = comps.dropLast.take k :=
                (take_dropLast comps k (by omega)).symm
              rw [htk]
              exact hInv.kClosed comps.dropLast hdlK k hk0 (by omega)
            · have hkeq : k = comps.length - 1 := by omega
              rw [hkeq, ← hdltake]
              exact hdlK
          · intro q0 h0 hs0
            rw [h0] at hs0
            simp at hs0
        | none =>
          obtain ⟨s2, aP2, i2, K2, hnc2, hCore2, hPreg2, hF3v2, hF4v2, hF5v2, hF7v2,
            hF8v2, hK10v2, hNew2⟩ :=
            ih comps.dropLast fu2 done K s e2 (by omega) hInv he2 hcdl hPc (by omega)
          have hsize : alGetI s2.dirSizes (pathStr comps.dropLast) =
              count0 es (pathStr comps.dropLast) := by
            rw [hF4v2, placed_zero_unreg es done K2 s2 hCore2 _ hF3v2,
              if_neg (fun he => (dirname_ne_self comps.dropLast hdlne hdlsimple) he.symm)]
            ring
          obtain ⟨fc0, hg7⟩ := hF7v2
          have hnd := newDirectory_ok s2 (aP2 ++ [i2]) (count0 es (pathStr comps.dropLast))
            (basename (pathStr comps.dropLast), fc0) hg7 (count0_nonneg es _)
          have hQs2 : alGet? s2.allFiles (pathStr comps) = none := by
            cases hq2c : alGet? s2.allFiles (pathStr comps) with
            | none => rfl
            | some v =>
              exfalso
              obtain ⟨k, hk0, hkl, hkeq⟩ := hNew2 _ hF3s (by rw [hq2c]; rfl)
              obtain ⟨htne, hts⟩ := take_simple_ne comps.dropLast hdlne hdlsimple k hk0
              have htke : comps = comps.dropLast.take k :=
                pathStr_inj _ _ hne hsimple htne hts hkeq
              have hlc := congrArg List.length htke
              rw [List.length_take, min_eq_left (le_of_lt hkl)] at hlc
              omega
          have hInv3 := register_write es done done K2 s2 comps.dropLast e2 aP2 i2
            (FC.directory (List.replicate
              (count0 es (pathStr comps.dropLast)).toNat ("", FC.unset)))
            hG hCore2 he2 hcdl hPreg2 hF3v2 hF4v2 hF5v2 ⟨fc0, hg7⟩ hF8v2 hK10v2
            (fun q' _ => rfl)
            (by
              rw [shapeSpec_dirEntry es done hG hCore2.doneEs e2 he2 hdir2 _ he2p]
              simp [shapeOf])
            (fun e' he' => Or.inl he') (fun e' h => h) hCore2.doneEs (Or.inr hdir2)
          refine ⟨{ s2 with
              allFiles := alSet s2.allFiles (pathStr comps.dropLast)
                (Handle.addr (aP2 ++ [i2])),
              root := modNode (fun f => (f.1, FC.directory (List.replicate
                (count0 es (pathStr comps.dropLast)).toNat ("", FC.unset))))
                s2.root (aP2 ++ [i2]) },
            aP2 ++ [i2], K2 ++ [comps.dropLast], ?_, hInv3, ?_, ?_, hPdir, ?_, ?_⟩
          · rw [getParent_succ, hdirq, hPc]
            simp only [hnc2, hsize, hnd]
          · dsimp only
            rw [hdirq, alGet?_alSet, if_pos rfl]
          · dsimp only
            rw [alGet?_alSet, if_neg hnedl]
            exact hQs2
          · intro k hk0 hkl
            by_cases hkd : k < comps.length - 1
            · have htk : comps.take k = comps.dropLast.take k :=
                (take_dropLast comps k (by omega)).symm
              rw [htk]
              exact List.mem_append_left _ (hK10v2 k hk0 (by omega))
            · have hkeq : k = comps.length - 1 := by omega
              rw [hkeq, ← hdltake]
              exact List.mem_append_right _ (by simp)
          · intro q0 h0 hs0
            dsimp only at hs0
            rw [alGet?_alSet_isSome] at hs0
            rcases hs0 with h | h
            · refine ⟨comps.length - 1, by omega, by omega, ?_⟩
              rw [← hdltake, h]
            · obtain ⟨k, hk0, hkl, hkeq⟩ := hNew2 q0 h0 h
              refine ⟨k, hk0, by omega, ?_⟩
              rw [hkeq, take_dropLast comps k (by omega)]
      · -- a single component: the parent is the preseeded root
        have h1 : comps.length = 1 := by omega
        obtain ⟨c, hc⟩ : ∃ c, comps = [c] := by
          cases comps with
          | nil => simp at h1
          | cons c t =>
            cases t with
            | nil => exact ⟨c, rfl⟩
            | cons d u => simp at h1
        subst hc
        have hdirq : dirname (pathStr [c]) = "." := dirname_single c (hsimple c (by simp))
        refine ⟨s, [], K, ?_, hInv, ?_, hF3s, ?_, ?_, ?_⟩
        · rw [getParent_succ, hdirq, hInv.rootKey]
        · rw [hdirq]
          exact hInv.rootKey
        · rw [hdirq]
          exact shapeSpec_dot es done hG hInv.doneEs
        · intro k hk0 hkl
          simp only [List.length_cons, List.length_nil] at hkl
          exact absurd hk0 (by omega)
        · intro q0 h0 hs0
          rw [h0] at hs0
          simp at hs0
    obtain ⟨s3, aP3, K3, hgp, hInv3, hPreg3, hQ3, hPdir3, hK10l, hNew3⟩ := hbundle
    obtain ⟨s', i, hcont, hAF, hCore', hPreg', hQ', hF4', hF5', hF7', hF8'⟩ :=
      alloc_spec es done K3 s3 comps e0 hG hInv3 he0 hc0 hQ3 aP3 hPreg3 hPdir3
    refine ⟨s', aP3, i, K3, ?_, hCore', hPreg', hQ', hF4', hF5', hF7', hF8', hK10l, ?_⟩
    · have h1 : nextChild (fu2 + 1 + 1) s (pathStr comps) =
          nextChildCont s3 (Handle.addr aP3) (pathStr comps) := by
        rw [nextChild_succ, hgp]
      exact h1.trans hcont
    · intro q0 h0 hs0
      rw [hAF] at hs0
      exact hNew3 q0 h0 hs0

theorem inv_extend_done (es done : List Header) (K : List (List (List Char))) (s : BSt)
    (e : Header) (hInv : Inv es done K s)
    (hshapes : ∀ q, shapeSpec es (done ++ [e]) q = shapeSpec es done q)
    (hees : supportedTypeFlag e = true → e ∈ es)
    (hereg : supportedTypeFlag e = true →
      (alGet? s.allFiles (clean e.name)).isSome = true) :
    Inv es (done ++ [e]) K s := by
  refine ⟨⟨hInv.kSimple, hInv.kClosed, hInv.kEntry, hInv.rootKey, hInv.keysIff, ?_, ?_, ?_,
    ?_, hInv.addrInj, hInv.parentLink, hInv.slotsFilled⟩, hInv.dirSizesVal⟩
  · intro e' he' hs
    rcases List.mem_append.mp he' with h | h
    · exact hInv.doneEs e' h hs
    · rw [List.mem_singleton.mp h] at hs ⊢
      exact hees hs
  · intro e' he' hs
    rcases List.mem_append.mp he' with h | h
    · exact hInv.doneReg e' h hs
    · rw [List.mem_singleton.mp h] at hs ⊢
      exact hereg hs
  · intro c hc e' he' hpe hnd
    exact hInv.kDirOrDone c hc e' he' hpe (fun hmem => hnd (List.mem_append_left _ hmem))
  · intro q h hq
    obtain ⟨a, ha, hdot, hni⟩ := hInv.nodes q h hq
    refine ⟨a, ha, hdot, ?_⟩
    rw [hshapes q]
    exact hni

theorem shapeSpec_append_ne (es done : List Header) (q' : String) (e : Header)
    (hne : clean e.name ≠ q') :
    shapeSpec es (done ++ [e]) q' = shapeSpec es done q' :=
  shapeSpec_append es done q' e (by simp [hne])

theorem shapeSpec_append_leaf (es done : List Header) (e : Header)
    (af : List (String × Handle))
    (hdr : ∀ e' ∈ done, supportedTypeFlag e' = true →
      (alGet? af (clean e'.name)).isSome = true)
    (hq : alGet? af (clean e.name) = none)
    (hsupp : supportedTypeFlag e = true) (hnd : e.typeflag ≠ tarTypeDir) :
    shapeSpec es (done ++ [e]) (clean e.name) =
      (if e.typeflag = tarTypeSymlink then FCShape.symlink e.linkname
       else match e.content with
         | some bytes => if permOf e &&& 73 = 0 then FCShape.regular bytes
             else FCShape.executable bytes
         | none => FCShape.unset) := by
  unfold shapeSpec
  rw [find?_append_left_none done [e] _ (find?_leaf_none done _ af hdr hq),
    List.find?_cons_of_pos _ (by simp [hsupp, hnd])]

/-- One iteration of the entry loop preserves the invariant: processing
the next entry of the stream succeeds and extends the processed prefix. -/
theorem processEntry_step (es done : List Header) (K : List (List (List Char))) (s : BSt)
    (e : Header) (fuel : Nat) (hG : GoodEs es) (hInv : Inv es done K s)
    (hmem : supportedTypeFlag e = true → e ∈ es ∧ e ∉ done)
    (hfuel : 2 * (compsOf e).length + 1 ≤ fuel) :
    ∃ (s' : BSt) (K' : List (List (List Char))),
      processEntry fuel s e = (s', none) ∧ Inv es (done ++ [e]) K' s' := by
  by_cases hsupp : supportedTypeFlag e = true
  case neg =>
    have hsupp' : supportedTypeFlag e = false := by
      cases hb : supportedTypeFlag e
      · rfl
      · exact absurd hb hsupp
    refine ⟨s, K, ?_, ?_⟩
    · unfold processEntry
      rw [if_pos hsupp']
    · exact inv_extend_done es done K s e hInv
        (fun q => shapeSpec_append es done q e (by rw [hsupp']; rfl))
        (fun hs => absurd hs (by rw [hsupp']; simp))
        (fun hs => absurd hs (by rw [hsupp']; simp))
  case pos =>
    obtain ⟨hees, hndone⟩ := hmem hsupp
    cases hreg : alGet? s.allFiles (clean e.name) with
    | some hfound =>
      obtain ⟨c2, hc2, heq2⟩ : ∃ c2 ∈ K, clean e.name = pathStr c2 := by
        have hiss : (alGet? s.allFiles (clean e.name)).isSome = true := by
          rw [hreg]
          rfl
        rcases (hInv.keysIff _).mp hiss with hdot | hex
        · exact absurd hdot (esPath_ne_dot es hG e hees)
        · exact hex
      have hdirE : e.typeflag = tarTypeDir := hInv.kDirOrDone c2 hc2 e hees heq2 hndone
      refine ⟨s, K, ?_, ?_⟩
      · unfold processEntry
        rw [if_neg (by rw [hsupp]; simp)]
        simp only [hreg]
      · exact inv_extend_done es done K s e hInv
          (fun q => shapeSpec_append es done q e (by rw [hdirE]; simp))
          (fun _ => hees) (fun _ => by rw [hreg]; rfl)
    | none =>
      obtain ⟨s', aP, i, K', hnc, hCore', hPreg', hQ', hF4', hF5', hF7', hF8', hK10', _⟩ :=
        nextChild_spec es hG (compsOf e).length (compsOf e) fuel done K s e (le_refl _)
          hInv hees rfl (by rw [← pathOf_eq]; exact hreg) hfuel
      have hnc' : nextChild fuel s (clean e.name) = (s', Handle.addr (aP ++ [i]), none) := by
        rw [pathOf_eq e]
        exact hnc
      have hcne : compsOf e ≠ [] := compsOf_ne_nil e
      have hsimple := hG.simple e hees
      obtain ⟨fc0, hg7⟩ := hF7'
      have hconv : ∀ fc : FC,
          shapeOf fc = shapeSpec es (done ++ [e]) (pathStr (compsOf e)) →
          Inv es (done ++ [e]) (K' ++ [compsOf e]) { s' with
            allFiles := alSet s'.allFiles (clean e.name) (Handle.addr (aP ++ [i])),
            root := modNode (fun f => (f.1, fc)) s'.root (aP ++ [i]) } := by
        intro fc hshape
        have h := register_write es done (done ++ [e]) K' s' (compsOf e) e aP i fc hG
          hCore' hees rfl hPreg' hQ' hF4' hF5' ⟨fc0, hg7⟩ hF8' hK10'
          (fun q' hq' => shapeSpec_append_ne es done q' e
            (fun hcq => hq' (by rw [← hcq, pathOf_eq])))
          hshape
          (fun e' he' => by
            rcases List.mem_append.mp he' with h | h
            · exact Or.inl h
            · rw [List.mem_singleton.mp h]
              exact Or.inr (pathOf_eq e))
          (fun e' h => List.mem_append_left _ h)
          (fun e' he' hs => by
            rcases List.mem_append.mp he' with h | h
            · exact hInv.doneEs e' h hs
            · rw [List.mem_singleton.mp h]
              exact hees)
          (Or.inl (List.mem_append_right _ (by simp)))
        rw [show pathStr (compsOf e) = clean e.name from (pathOf_eq e).symm] at h
        exact h
      by_cases hdirE : e.typeflag = tarTypeDir
      · -- directory entry: preallocate with the pass-1 count
        have hn : alGetI s'.dirSizes (clean e.name) = count0 es (clean e.name) := by
          rw [pathOf_eq e, hF4', placed_zero_unreg es done K' s' hCore' _ hQ',
            if_neg (fun he => (dirname_ne_self (compsOf e) hcne hsimple) he.symm)]
          ring
        have hnd := newDirectory_ok
          { s' with allFiles := alSet s'.allFiles (clean e.name) (Handle.addr (aP ++ [i])) }
          (aP ++ [i]) (count0 es (clean e.name))
          (basename (pathStr (compsOf e)), fc0) hg7 (count0_nonneg es _)
        have hpe : processEntry fuel s e = ({ s' with
            allFiles := alSet s'.allFiles (clean e.name) (Handle.addr (aP ++ [i])),
            root := modNode (fun f => (f.1, FC.directory (List.replicate
              (count0 es (clean e.name)).toNat ("", FC.unset)))) s'.root (aP ++ [i]) },
          none) := by
          simp only [processEntry, supportedTypeFlag, hdirE, tarTypeDir, tarTypeReg,
            tarTypeSymlink, hreg, hnc']
          norm_num
          rw [hn, hnd]
        refine ⟨_, K' ++ [compsOf e], hpe, ?_⟩
        exact hconv _ (by
          rw [← pathOf_eq e, shapeSpec_append es done (clean e.name) e (by rw [hdirE]; simp),
            shapeSpec_unreg es done (clean e.name) s.allFiles hInv.doneReg hreg]
          simp [shapeOf])
      · by_cases hsymE : e.typeflag = tarTypeSymlink
        · -- symlink entry
          have hset := setFC_ok
            { s' with allFiles := alSet s'.allFiles (clean e.name) (Handle.addr (aP ++ [i])) }
            (aP ++ [i]) (FC.symlink e.linkname) (basename (pathStr (compsOf e)), fc0) hg7
          have hpe : processEntry fuel s e = ({ s' with
              allFiles := alSet s'.allFiles (clean e.name) (Handle.addr (aP ++ [i])),
              root := modNode (fun f => (f.1, FC.symlink e.linkname)) s'.root (aP ++ [i]) },
            none) := by
            simp only [processEntry, supportedTypeFlag, hsymE, tarTypeDir, tarTypeReg,
              tarTypeSymlink, hreg, hnc']
            norm_num
            rw [setSymlink, hset]
          refine ⟨_, K' ++ [compsOf e], hpe, ?_⟩
          exact hconv _ (by
            rw [← pathOf_eq e,
              shapeSpec_append_leaf es done e s.allFiles hInv.doneReg hreg hsupp
                (by rw [hsymE]; decide),
              if_pos hsymE]
            rfl)
        · -- regular entry
          have hregT : e.typeflag = tarTypeReg := by
            have hs := hsupp
            simp only [supportedTypeFlag, Bool.or_eq_true, decide_eq_true_eq] at hs
            rcases hs with h | h | h
            · exact absurd h hdirE
            · exact h
            · exact absurd h hsymE
          obtain ⟨bytes, hbytes⟩ : ∃ b, e.content = some b := by
            have hrd := hG.read e hees hregT
            cases hb : e.content with
            | none => rw [hb] at hrd; simp at hrd
            | some b => exact ⟨b, rfl⟩
          by_cases hperm : permOf e &&& 73 = 0
          · have hset := setFC_ok
              { s' with allFiles := alSet s'.allFiles (clean e.name) (Handle.addr (aP ++ [i])) }
              (aP ++ [i]) (FC.regular bytes) (basename (pathStr (compsOf e)), fc0) hg7
            have hpe : processEntry fuel s e = ({ s' with
                allFiles := alSet s'.allFiles (clean e.name) (Handle.addr (aP ++ [i])),
                root := modNode (fun f => (f.1, FC.regular bytes)) s'.root (aP ++ [i]) },
              none) := by
              simp only [processEntry, supportedTypeFlag, hregT, tarTypeDir, tarTypeReg,
                tarTypeSymlink, hreg, hnc', hbytes]
              norm_num
              rw [if_pos hperm, setRegular, hset]
            refine ⟨_, K' ++ [compsOf e], hpe, ?_⟩
            exact hconv _ (by
              rw [← pathOf_eq e,
                shapeSpec_append_leaf es done e s.allFiles hInv.doneReg hreg hsupp
                  (by rw [hregT]; decide),
                if_neg (show ¬ e.typeflag = tarTypeSymlink by rw [hregT]; decide)]
              simp only [hbytes]
              rw [if_pos hperm]
              rfl)
          · have hset := setFC_ok
              { s' with allFiles := alSet s'.allFiles (clean e.name) (Handle.addr (aP ++ [i])) }
              (aP ++ [i]) (FC.executable bytes) (basename (pathStr (compsOf e)), fc0) hg7
            have hpe : processEntry fuel s e = ({ s' with
                allFiles := alSet s'.allFiles (clean e.name) (Handle.addr (aP ++ [i])),
                root := modNode (fun f => (f.1, FC.executable bytes)) s'.root (aP ++ [i]) },
              none) := by
              simp only [processEntry, supportedTypeFlag, hregT, tarTypeDir, tarTypeReg,
                tarTypeSymlink, hreg, hnc', hbytes]
              norm_num
              rw [if_neg hperm, setExecutable, hset]
            refine ⟨_, K' ++ [compsOf e], hpe, ?_⟩
            exact hconv _ (by
              rw [← pathOf_eq e,
                shapeSpec_append_leaf es done e s.allFiles hInv.doneReg hreg hsupp
                  (by rw [hregT]; decide),
                if_neg (show ¬ e.typeflag = tarTypeSymlink by rw [hregT]; decide)]
              simp only [hbytes]
              rw [if_neg hperm]
              rfl)

theorem buildEntries_cons (fuel : Nat) (s : BSt) (e : Header) (t : List Header) :
    buildEntries fuel s (e :: t) = match processEntry fuel s e with
      | (s', none) => buildEntries fuel s' t
      | (s', some err) => (s', some err) := rfl

/-- The entry loop preserves the invariant, processing the whole suffix
without error. -/
theorem buildEntries_inv (es : List Header) (hG : GoodEs es) (fuel : Nat) :
    ∀ (todo done : List Header) (K : List (List (List Char))) (s : BSt),
      es = (done ++ todo).filter (fun x => supportedTypeFlag x) →
      Inv es done K s →
      (∀ e ∈ todo, 2 * (compsOf e).length + 1 ≤ fuel) →
      ∃ (s' : BSt) (K' : List (List (List Char))),
        buildEntries fuel s todo = (s', none) ∧ Inv es (done ++ todo) K' s' := by
  intro todo
  induction todo with
  | nil =>
    intro done K s _ hInv _
    exact ⟨s, K, rfl, by simpa using hInv⟩
  | cons e rest ihe =>
    intro done K s hes hInv hfuel
    have hmem : supportedTypeFlag e = true → e ∈ es ∧ e ∉ done := by
      intro hs
      constructor
      · rw [hes]
        exact List.mem_filter.mpr ⟨by simp, hs⟩
      · intro hdone
        have hnd : es.Nodup := List.Nodup.of_map _ hG.nodup
        have hes2 : es = done.filter (fun x => supportedTypeFlag x) ++ e ::
            rest.filter (fun x => supportedTypeFlag x) := by
          rw [hes, List.filter_append, List.filter_cons, if_pos hs]
        have hnd2 := hes2 ▸ hnd
        rw [List.nodup_middle] at hnd2
        exact (List.nodup_cons.mp hnd2).1
          (List.mem_append_left _ (List.mem_filter.mpr ⟨hdone, hs⟩))
    obtain ⟨s1, K1, hpe, hInv1⟩ := processEntry_step es done K s e fuel hG hInv hmem
      (hfuel e (by simp))
    obtain ⟨s2, K2, hbe, hInv2⟩ := ihe (done ++ [e]) K1 s1
      (by rw [List.append_assoc]; exact hes)
      hInv1 (fun e' he' => hfuel e' (by simp [he']))
    refine ⟨s2, K2, ?_, ?_⟩
    · rw [buildEntries_cons, hpe]
      exact hbe
    · rw [List.append_assoc] at hInv2
      exact hInv2

theorem buildEntries_append (fuel : Nat) :
    ∀ (l1 l2 : List Header) (s : BSt),
      buildEntries fuel s (l1 ++ l2) = match buildEntries fuel s l1 with
        | (s', none) => buildEntries fuel s' l2
        | (s', some e) => (s', some e) := by
  intro l1
  induction l1 with
  | nil => intro l2 s; rfl
  | cons e t ih =>
    intro l2 s
    rw [List.cons_append, buildEntries_cons, buildEntries_cons]
    cases hpe : processEntry fuel s e with
    | mk s1 err =>
      cases err with
      | none => exact ih l2 s1
      | some er => rfl

/-- The layer loop equals the entry loop over the flattened stream. -/
theorem buildLayers_eq (fuel : Nat) :
    ∀ (layers : List (List Header)) (s : BSt),
      buildLayers fuel s layers = buildEntries fuel s layers.flatten := by
  intro layers
  induction layers with
  | nil => intro s; rfl
  | cons layer t ih =>
    intro s
    have hbl : buildLayers fuel s (layer :: t) = match buildEntries fuel s layer with
      | (s', none) => buildLayers fuel s' t
      | (s', some e) => (s', some e) := rfl
    rw [hbl, List.flatten_cons, buildEntries_append]
    cases hbe : buildEntries fuel s layer with
    | mk s1 err =>
      cases err with
      | none => exact ih s1
      | some er => rfl

theorem foldl_max_le_base (l : List Header) : ∀ acc : Nat,
    acc ≤ l.foldl (fun a hdr => max a (clean hdr.name).length) acc := by
  induction l with
  | nil => intro acc; exact le_refl _
  | cons e t ih =>
    intro acc
    exact le_trans (le_max_left _ _) (ih _)

theorem foldl_max_mem (l : List Header) : ∀ acc : Nat, ∀ e ∈ l,
    (clean e.name).length ≤ l.foldl (fun a hdr => max a (clean hdr.name).length) acc := by
  induction l with
  | nil => intro acc e he; simp at he
  | cons e2 t ih =>
    intro acc e he
    rcases List.mem_cons.mp he with h | h
    · subst h
      exact le_trans (le_max_right _ _) (foldl_max_le_base t _)
    · exact ih _ e h

theorem layers_foldl_base (layers : List (List Header)) : ∀ acc : Nat,
    acc ≤ layers.foldl (fun acc layer => layer.foldl
      (fun a hdr => max a (clean hdr.name).length) acc) acc := by
  induction layers with
  | nil => intro acc; exact le_refl _
  | cons l t ih =>
    intro acc
    exact le_trans (foldl_max_le_base l acc) (ih _)

theorem layers_foldl_mem (layers : List (List Header)) :
    ∀ (acc : Nat) (layer : List Header), layer ∈ layers → ∀ e ∈ layer,
      (clean e.name).length ≤ layers.foldl
        (fun acc layer => layer.foldl (fun a hdr => max a (clean hdr.name).length) acc)
        acc := by
  induction layers with
  | nil => intro acc layer h; simp at h
  | cons l t ih =>
    intro acc layer hl e he
    rcases List.mem_cons.mp hl with h | h
    · subst h
      exact le_trans (foldl_max_mem layer acc e he) (layers_foldl_base t _)
    · exact ih _ layer h e he

theorem splitC_length_le : ∀ l : List Char, (splitC l).length ≤ l.length + 1 := by
  intro l
  induction l with
  | nil => simp [splitC]
  | cons c rest ih =>
    cases hs : splitC rest with
    | nil => exact absurd hs (splitC_ne_nil rest)
    | cons comp comps =>
      rw [hs] at ih
      simp only [splitC, hs]
      by_cases h : c = '/'
      · rw [if_pos h]
        simp only [List.length_cons] at ih ⊢
        omega
      · rw [if_neg h]
        simp only [List.length_cons] at ih ⊢
        omega

/-- The fuel bound of `buildArchive` covers the parent-chain recursion
of every entry of the stream. -/
theorem fuelFor_ge (layers : List (List Header)) :
    ∀ e ∈ layers.flatten, 2 * (compsOf e).length + 1 ≤ fuelFor layers := by
  intro e he
  rw [List.mem_flatten] at he
  obtain ⟨layer, hlay, hel⟩ := he
  have h1 := layers_foldl_mem layers 0 layer hlay e hel
  have h2 : (compsOf e).length ≤ (clean e.name).length + 1 := by
    unfold compsOf
    exact splitC_length_le (clean e.name).data
  unfold fuelFor
  omega

/-- A coherent stream yields the bundled hypotheses on its
supported-entry list. -/
theorem coherent_elim (layers : List (List Header)) (h : coherentStream layers = true) :
    GoodEs (suppEntries layers) := by
  unfold coherentStream at h
  simp only [Bool.and_eq_true, List.all_eq_true, List.any_eq_true, Bool.or_eq_true,
    decide_eq_true_eq] at h
  obtain ⟨⟨⟨hsimp, hnd⟩, hanc⟩, hread⟩ := h
  refine ⟨?_, ?_, hnd, ?_, ?_⟩
  · intro e he
    exact (List.mem_filter.mp he).2
  · intro e he x hx
    exact hsimp e he x hx
  · intro e he pre hpre
    obtain ⟨e2, he2, hc1, hc2⟩ := hanc e he pre hpre
    exact ⟨e2, he2, hc1, hc2⟩
  · intro e he hreg
    rcases hread e he with h' | h'
    · exact absurd hreg h'
    · exact h'

theorem count0_supp (layers : List (List Header)) (P : String) :
    count0 (suppEntries layers) P = count0 layers.flatten P := by
  have hf : (suppEntries layers).filter (fun e => supportedTypeFlag e &&
      decide (dirname (clean e.name) = P)) = layers.flatten.filter
        (fun e => supportedTypeFlag e && decide (dirname (clean e.name) = P)) := by
    unfold suppEntries
    rw [List.filter_filter]
    apply List.filter_congr
    intro x _
    cases hs : supportedTypeFlag x <;> simp [hs]
  unfold count0
  rw [hf]

theorem placed_init (es : List Header) (P : String)
    (hdot : ∀ e ∈ es, clean e.name ≠ ".") :
    placedCount es [(".", Handle.addr [])] P = 0 := by
  unfold placedCount
  have hz : es.filter (fun e => supportedTypeFlag e && decide (dirname (clean e.name) = P) &&
      (alGet? [(".", Handle.addr [])] (clean e.name)).isSome) = [] := by
    rw [List.filter_eq_nil_iff]
    intro e he hc
    rw [Bool.and_eq_true, Bool.and_eq_true] at hc
    obtain ⟨_, hsome⟩ := hc
    have hn : alGet? [(".", Handle.addr [])] (clean e.name) = none := by
      simp only [alGet?]
      rw [if_neg (fun h => hdot e he h.symm)]
    rw [hn] at hsome
    simp at hsome
  rw [hz]
  rfl

/-- The initial state of pass 2 satisfies the invariant with nothing
processed and no non-root path registered. -/
theorem inv_init (layers : List (List Header)) (hG : GoodEs (suppEntries layers)) :
    Inv (suppEntries layers) [] [] (initState (getDirSizes layers)) := by
  have hdot : ∀ e ∈ suppEntries layers, clean e.name ≠ "." :=
    fun e he => esPath_ne_dot _ hG e he
  have hcnt : ∀ P, alGetI (getDirSizes layers) P = count0 (suppEntries layers) P := by
    intro P
    rw [getDirSizes_count, ← count0_supp]
  have halG : ∀ q, alGet? [(".", Handle.addr [])] q =
      if "." = q then some (Handle.addr []) else none := by
    intro q
    simp only [alGet?]
  refine ⟨⟨?_, ?_, ?_, ?_, ?_, ?_, ?_, ?_, ?_, ?_, ?_, ?_⟩, ?_⟩
  · exact fun c hc => absurd hc (List.not_mem_nil c)
  · exact fun c hc => absurd hc (List.not_mem_nil c)
  · exact fun c hc => absurd hc (List.not_mem_nil c)
  · -- rootKey
    show alGet? [(".", Handle.addr [])] "." = some (Handle.addr [])
    rw [halG, if_pos rfl]
  · -- keysIff
    intro q
    show (alGet? [(".", Handle.addr [])] q).isSome = true ↔ _
    rw [halG]
    by_cases h : "." = q
    · rw [if_pos h]
      constructor
      · intro _
        exact Or.inl h.symm
      · intro _
        rfl
    · rw [if_neg h]
      constructor
      · intro hh
        simp at hh
      · rintro (hh | ⟨c, hc, _⟩)
        · exact absurd hh.symm h
        · exact absurd hc (List.not_mem_nil c)
  · exact fun e' he' => absurd he' (List.not_mem_nil e')
  · exact fun e' he' => absurd he' (List.not_mem_nil e')
  · exact fun c hc => absurd hc (List.not_mem_nil c)
  · -- nodes
    intro q h hq
    rw [show (initState (getDirSizes layers)).allFiles = [(".", Handle.addr [])] from rfl,
      halG] at hq
    by_cases hd : "." = q
    · rw [if_pos hd] at hq
      injection hq with hq
      subst hd
      refine ⟨[], hq.symm, fun _ => rfl, ?_⟩
      have hsspec : shapeSpec (suppEntries layers) [] "." =
          FCShape.directory (count0 (suppEntries layers) ".").toNat := by
        unfold shapeSpec
        rw [List.find?_nil]
      rw [hsspec]
      show some ("", shapeOf (FC.directory (List.replicate
          (alGetI (getDirSizes layers) ".").toNat ("", FC.unset)))) = _
      simp only [shapeOf, List.length_replicate]
      rw [hcnt]
      rfl
    · rw [if_neg hd] at hq
      exact absurd hq (by simp)
  · -- addrInj
    intro q1 q2 h1 h2 hg1 hg2 _
    rw [show (initState (getDirSizes layers)).allFiles = [(".", Handle.addr [])] from rfl,
      halG] at hg1 hg2
    by_cases d1 : "." = q1
    · by_cases d2 : "." = q2
      · rw [← d1, ← d2]
      · rw [if_neg d2] at hg2
        exact absurd hg2 (by simp)
    · rw [if_neg d1] at hg1
      exact absurd hg1 (by simp)
  · -- parentLink
    intro q h hq hqd
    rw [show (initState (getDirSizes layers)).allFiles = [(".", Handle.addr [])] from rfl,
      halG] at hq
    by_cases hd : "." = q
    · exact absurd hd.symm hqd
    · rw [if_neg hd] at hq
      exact absurd hq (by simp)
  · -- slotsFilled
    intro P aP hP i hi
    exfalso
    rw [show (initState (getDirSizes layers)).allFiles = [(".", Handle.addr [])] from rfl]
      at hi
    rw [placed_init _ _ hdot] at hi
    omega
  · -- dirSizesVal
    intro P
    show alGetI (getDirSizes layers) P = _
    rw [hcnt,
      show (initState (getDirSizes layers)).allFiles = [(".", Handle.addr [])] from rfl,
      placed_init _ _ hdot]
    ring

theorem placed_full (es : List Header) (af : List (String × Handle))
    (hall : ∀ e ∈ es, (alGet? af (clean e.name)).isSome = true) (P : String) :
    placedCount es af P = count0 es P := by
  unfold placedCount count0
  have hf : es.filter (fun e => supportedTypeFlag e && decide (dirname (clean e.name) = P) &&
      (alGet? af (clean e.name)).isSome) = es.filter (fun e => supportedTypeFlag e &&
      decide (dirname (clean e.name) = P)) := by
    apply List.filter_congr
    intro x hx
    rw [hall x hx, Bool.and_true]
  rw [hf]

theorem sizeOf_slot_lt (ch : List (String × FC)) (x : String × FC) (hx : x ∈ ch) :
    sizeOf x.2 < sizeOf (FC.directory ch) := by
  have h1 : sizeOf x < sizeOf ch := List.sizeOf_lt_of_mem hx
  obtain ⟨n, f⟩ := x
  simp only [Prod.mk.sizeOf_spec] at h1
  simp only [FC.directory.sizeOf_spec]
  show sizeOf f < 1 + sizeOf ch
  omega

theorem getNode_nil (r : String × FC) : getNode r [] = some r := by
  obtain ⟨n, fc⟩ := r
  cases fc <;> rfl

/-- At the end of an error-free build over a coherent stream every
registered node is recursively full: leaves hold their payloads and
every directory slot was handed out and written. -/
theorem inv_full (es flat : List Header) (K : List (List (List Char))) (sF : BSt)
    (hG : GoodEs es) (hInv : Inv es flat K sF)
    (hfull : ∀ P, placedCount es sF.allFiles P = count0 es P) :
    ∀ (m : Nat) (fc : FC), sizeOf fc ≤ m → ∀ (q : String) (a : List Nat) (nm : String),
      alGet? sF.allFiles q = some (Handle.addr a) →
      getNode sF.root a = some (nm, fc) → fcFull fc = true := by
  intro m
  induction m using Nat.strong_induction_on with
  | _ m ihm =>
    intro fc hsz q a nm hq hg
    obtain ⟨a0, ha0, _, hni⟩ := hInv.nodes q _ hq
    injection ha0 with ha0
    subst ha0
    unfold nodeInfo at hni
    rw [hg] at hni
    simp only [Option.map_some', Option.some.injEq, Prod.mk.injEq] at hni
    have hsh : shapeOf fc = shapeSpec es flat q := hni.2
    cases hfind : flat.find? (fun e => supportedTypeFlag e && decide (clean e.name = q) &&
        decide (e.typeflag ≠ tarTypeDir)) with
    | some e1 =>
      have hsp : shapeSpec es flat q =
          (if e1.typeflag = tarTypeSymlink then FCShape.symlink e1.linkname
           else match e1.content with
             | some bytes => if permOf e1 &&& 73 = 0 then FCShape.regular bytes
                 else FCShape.executable bytes
             | none => FCShape.unset) := by
        unfold shapeSpec
        rw [hfind]
      have hpe1 := List.find?_some hfind
      rw [Bool.and_eq_true, Bool.and_eq_true, decide_eq_true_eq, decide_eq_true_eq] at hpe1
      obtain ⟨⟨hs1, _⟩, hnd1⟩ := hpe1
      have he1es : e1 ∈ es := hInv.doneEs e1 (List.mem_of_find?_eq_some hfind) hs1
      rw [hsp] at hsh
      by_cases hsym : e1.typeflag = tarTypeSymlink
      · rw [if_pos hsym] at hsh
        cases fc with
        | symlink t => rfl
        | unset => simp [shapeOf] at hsh
        | regular d => simp [shapeOf] at hsh
        | executable d => simp [shapeOf] at hsh
        | directory ch => simp [shapeOf] at hsh
      · have hregT : e1.typeflag = tarTypeReg := by
          have hsup := hG.supp e1 he1es
          simp only [supportedTypeFlag, Bool.or_eq_true, decide_eq_true_eq] at hsup
          rcases hsup with h | h | h
          · exact absurd h hnd1
          · exact h
          · exact absurd h hsym
        obtain ⟨bytes, hb⟩ : ∃ b, e1.content = some b := by
          have hrd := hG.read e1 he1es hregT
          cases hbc : e1.content with
          | none => rw [hbc] at hrd; simp at hrd
          | some b => exact ⟨b, rfl⟩
        rw [if_neg hsym] at hsh
        simp only [hb] at hsh
        by_cases hperm : permOf e1 &&& 73 = 0
        · rw [if_pos hperm] at hsh
          cases fc with
          | regular d => rfl
          | unset => simp [shapeOf] at hsh
          | symlink t => simp [shapeOf] at hsh
          | executable d => simp [shapeOf] at hsh
          | directory ch => simp [shapeOf] at hsh
        · rw [if_neg hperm] at hsh
          cases fc with
          | executable d => rfl
          | unset => simp [shapeOf] at hsh
          | symlink t => simp [shapeOf] at hsh
          | regular d => simp [shapeOf] at hsh
          | directory ch => simp [shapeOf] at hsh
    | none =>
      have hsp : shapeSpec es flat q = FCShape.directory (count0 es q).toNat := by
        unfold shapeSpec
        rw [hfind]
      rw [hsp] at hsh
      cases fc with
      | unset => simp [shapeOf] at hsh
      | regular d => simp [shapeOf] at hsh
      | executable d => simp [shapeOf] at hsh
      | symlink t => simp [shapeOf] at hsh
      | directory ch =>
        simp only [shapeOf, FCShape.directory.injEq] at hsh
        show slotsFull ch = true
        rw [slotsFull_eq_all, List.all_eq_true]
        intro x hx
        obtain ⟨j, hj, hxe⟩ := List.getElem_of_mem hx
        have hjI : (j : Int) < count0 es q := by
          have hc0 := count0_nonneg es q
          omega
        rw [← hfull q] at hjI
        obtain ⟨q2, _, _, hq2g⟩ := hInv.slotsFilled q a hq j hjI
        have hga := getNode_append sF.root a [j] (nm, FC.directory ch) hg
        rw [getNode_child] at hga
        have hxg : getNode sF.root (a ++ [j]) = some x := by
          rw [hga, List.getElem?_eq_getElem hj, hxe]
        obtain ⟨nm2, fc2⟩ := x
        have hlt : sizeOf fc2 < sizeOf (FC.directory ch) :=
          sizeOf_slot_lt ch (nm2, fc2) hx
        exact ihm (sizeOf fc2) (by omega) fc2 (le_refl _) q2 (a ++ [j]) nm2 hq2g hxg

/-- Claim C1 (amended): count/build agreement on coherent streams.  For
every entry stream whose supported entries have simple relative
normalized paths (no `".."`, no leading slash, not `"."`), no repeated
normalized path, an explicit directory entry somewhere in the stream for
every proper ancestor of each path, and readable contents for regular
entries, running the child-count pass (`getDirSizes`) followed by the
tree-building pass (`buildArchive`) over that same stream raises no
error, and at the end of the build every directory node of the result
(the root included) has every one of its preallocated child slots
occupied — no unfilled slots and no overflow. -/
theorem buildAgreement : ∀ layers : List (List Header), coherentStream layers = true →
    ∃ out : ArchiveOut, buildArchive layers = Except.ok out ∧
      slotsFull out.files = true := by
  intro layers hcoh
  have hG := coherent_elim layers hcoh
  have hInit := inv_init layers hG
  obtain ⟨sF, KF, hloop, hInvF⟩ := buildEntries_inv (suppEntries layers) hG
    (fuelFor layers) layers.flatten [] [] (initState (getDirSizes layers)) rfl hInit
    (fun e he => fuelFor_ge layers e he)
  have hregAll : ∀ e ∈ suppEntries layers,
      (alGet? sF.allFiles (clean e.name)).isSome = true := by
    intro e he
    have heflat : e ∈ layers.flatten := List.mem_of_mem_filter he
    exact hInvF.doneReg e (by simpa using heflat) (List.mem_filter.mp he).2
  have hfull := placed_full _ _ hregAll
  obtain ⟨a0, ha0, _, hni0⟩ := hInvF.nodes "." _ hInvF.rootKey
  injection ha0 with ha0
  subst ha0
  rw [shapeSpec_dot _ _ hG hInvF.doneEs] at hni0
  have hsh0 : shapeOf sF.root.2 =
      FCShape.directory (count0 (suppEntries layers) ".").toNat := by
    unfold nodeInfo at hni0
    rw [getNode_nil] at hni0
    simp only [Option.map_some', Option.some.injEq, Prod.mk.injEq] at hni0
    exact hni0.2
  obtain ⟨ch0, hch0⟩ : ∃ ch0, sF.root.2 = FC.directory ch0 := by
    cases hfc : sF.root.2 with
    | directory ch => exact ⟨ch, rfl⟩
    | unset => rw [hfc] at hsh0; simp [shapeOf] at hsh0
    | regular d => rw [hfc] at hsh0; simp [shapeOf] at hsh0
    | executable d => rw [hfc] at hsh0; simp [shapeOf] at hsh0
    | symlink t => rw [hfc] at hsh0; simp [shapeOf] at hsh0
  have hrootfull : fcFull sF.root.2 = true :=
    inv_full _ _ KF sF hG hInvF hfull (sizeOf sF.root.2) sF.root.2 (le_refl _) "." []
      sF.root.1 hInvF.rootKey (getNode_nil sF.root)
  have hBA : buildArchive layers = Except.ok
      { files := rootChildren sF.root
      , manifestPresent := (alGet? sF.allFiles "sandstorm-manifest").isSome } := by
    unfold buildArchive
    simp only [buildLayers_eq, hloop]
  refine ⟨_, hBA, ?_⟩
  show slotsFull (rootChildren sF.root) = true
  unfold rootChildren
  rw [hch0] at hrootfull ⊢
  exact hrootfull

/-- Witness for C1 on a one-entry coherent stream: a single top-level
regular file converts successfully into a tree with no unfilled slot. -/
theorem buildAgreement_witness :
    coherentStream [[regEntry "f" 0o644 [7]]] = true ∧
      ∃ out : ArchiveOut, buildArchive [[regEntry "f" 0o644 [7]]] = Except.ok out ∧
        slotsFull out.files = true :=
  ⟨by decide, buildAgreement [[regEntry "f" 0o644 [7]]] (by decide)⟩

/-- Witness for C5: permission bits `0644` yield `regular`, `0755`
yield `executable`, and a symlink stores `"../foo"` verbatim. -/
theorem classification_witness :
    (∃ a, Handle.addr [0] = Handle.addr a ∧
        (processEntry 2 oneSlotState (regEntry "f" 0o644 [5])).2 = none ∧
        getNode (processEntry 2 oneSlotState (regEntry "f" 0o644 [5])).1.root a =
          some ("f", FC.regular [5])) ∧
      (∃ a, Handle.addr [0] = Handle.addr a ∧
        (processEntry 2 oneSlotState (regEntry "g" 0o755 [6])).2 = none ∧
        getNode (processEntry 2 oneSlotState (regEntry "g" 0o755 [6])).1.root a =
          some ("g", FC.executable [6])) ∧
      (∃ a, Handle.addr [0] = Handle.addr a ∧
        (processEntry 2 oneSlotState (symEntry "l" "../foo")).2 = none ∧
        getNode (processEntry 2 oneSlotState (symEntry "l" "../foo")).1.root a =
          some ("l", FC.symlink "../foo")) :=
  ⟨classification.1 2 oneSlotState (regEntry "f" 0o644 [5]) [5] _ _ rfl rfl rfl rfl,
    classification.1 2 oneSlotState (regEntry "g" 0o755 [6]) [6] _ _ rfl rfl rfl rfl,
    classification.2 2 oneSlotState (symEntry "l" "../foo") _ _ rfl rfl rfl⟩

/-- Witness for C10: a readable entry reports success, an unreadable one
aborts with `readError`, from the same state. -/
theorem storeErrorShadowed_witness :
    (processEntry 2 oneSlotState (regEntry "f" 0o644 [5])).2 = none ∧
      (processEntry 2 oneSlotState (Header.mk "f" tarTypeReg 0o644 "" none)).2 =
        some BErr.readError :=
  ⟨storeErrorShadowed.1 2 oneSlotState (regEntry "f" 0o644 [5]) [5] rfl rfl rfl rfl,
    storeErrorShadowed.2 2 oneSlotState (Header.mk "f" tarTypeReg 0o644 "" none) rfl rfl rfl rfl⟩

end DockerSpk
